import Mathlib

/-!
Verification of the board reconciliation logic of the MY_KanBan repository
(src/src/components/KanbanBoard.tsx).  The definitions below are a shallow
embedding of that component: the pure state-update logic of each handler is
translated into a Lean function on an explicit board state, with the outcomes
of remote calls and the geometry of drag gestures passed in as parameters.
-/

/-- A link attached to a card (source: type LinkItem in KanbanBoard.tsx). -/
structure LinkItem where
  label : String
  href : String
deriving DecidableEq, Repr

/-- A card (source: type KanbanItem in KanbanBoard.tsx).  Optional fields are
modelled with Option: none stands for the JS value undefined (and for null,
which the handlers normalise to undefined before storing). -/
structure KanbanItem where
  id : String
  title : String
  description : Option String
  links : Option (List LinkItem)
deriving DecidableEq, Repr

/-- The four column keys (source: type ColumnKey in KanbanBoard.tsx). -/
inductive ColumnKey where
  | todo
  | doing
  | done
  | temp
deriving DecidableEq, Repr

/-- The board: one ordered card sequence per column (source: type BoardState,
a Record from ColumnKey to KanbanItem arrays).  A JS object literal with the
keys todo, doing, done, temp enumerates them in that insertion order, which is
the order every Object.keys / Object.entries loop in the component uses. -/
structure BoardState where
  todo : List KanbanItem
  doing : List KanbanItem
  done : List KanbanItem
  temp : List KanbanItem
deriving DecidableEq, Repr

/-- The empty board (source: const initialBoard). -/
def initialBoard : BoardState :=
  ⟨[], [], [], []⟩

/-- Reading a column of the board (source: board[col]). -/
def getCol (c : ColumnKey) (b : BoardState) : List KanbanItem :=
  match c with
  | .todo => b.todo
  | .doing => b.doing
  | .done => b.done
  | .temp => b.temp

/-- Writing a column of the board (source: the spread updates of the form
braces-prev-with-[col]-replaced, and the field assignments newBoard[col]). -/
def setCol (c : ColumnKey) (l : List KanbanItem) (b : BoardState) : BoardState :=
  match c with
  | .todo => ⟨l, b.doing, b.done, b.temp⟩
  | .doing => ⟨b.todo, l, b.done, b.temp⟩
  | .done => ⟨b.todo, b.doing, l, b.temp⟩
  | .temp => ⟨b.todo, b.doing, b.done, l⟩

/-- The scan order of the columns: the insertion order of the keys of the
BoardState object literal, hence the order of every Object.keys and
Object.entries loop in the component. -/
def scanIdx (c : ColumnKey) : Nat :=
  match c with
  | .todo => 0
  | .doing => 1
  | .done => 2
  | .temp => 3

/-- Decoding a string as one of the four own keys of the board object
(todo, doing, done, temp). -/
def keyOfString (s : String) : Option ColumnKey :=
  if s = "todo" then some .todo
  else if s = "doing" then some .doing
  else if s = "done" then some .done
  else if s = "temp" then some .temp
  else none

/-- All cards of the board, in column scan order. -/
def allItems (b : BoardState) : List KanbanItem :=
  b.todo ++ b.doing ++ b.done ++ b.temp

/-- The identities of a card sequence. -/
def idsOf (l : List KanbanItem) : List String :=
  l.map (fun i => i.id)

/-- All card identities on the board, in scan order. -/
def boardIds (b : BoardState) : List String :=
  idsOf (allItems b)

/-- How often the identity a occurs in the sequence l. -/
def countId (l : List KanbanItem) (a : String) : Nat :=
  l.countP (fun i => i.id == a)

/-- How often the identity a occurs on the whole board. -/
def countBoard (b : BoardState) (a : String) : Nat :=
  countId (allItems b) a

/-- The no-duplication invariant: every card identity occurs at most once on
the whole board (hence in at most one column, and in that column at most
once). -/
def UniqueBoard (b : BoardState) : Prop :=
  ∀ a : String, countBoard b a ≤ 1

/-- Prepending a card to a column (source: [newItem, ...prev[col]]). -/
def prependCol (c : ColumnKey) (it : KanbanItem) (b : BoardState) : BoardState :=
  setCol c (it :: getCol c b) b

/-- Appending a card to a column (source: [...newBoard[col], item]). -/
def appendToCol (c : ColumnKey) (it : KanbanItem) (b : BoardState) : BoardState :=
  setCol c (getCol c b ++ [it]) b

/-- Removing an identity from every column (source: the loop over
Object.keys(newBoard) filtering item.id !== cardId in the UPDATE and DELETE
subscription cases). -/
def removeIdBoard (a : String) (b : BoardState) : BoardState :=
  ⟨b.todo.filter (fun i => !(i.id == a)),
   b.doing.filter (fun i => !(i.id == a)),
   b.done.filter (fun i => !(i.id == a)),
   b.temp.filter (fun i => !(i.id == a))⟩

/-- One column pass of ensureUniqueItems: keep each card whose identity has
not been seen yet, threading the set of seen identities (source: the
items.filter callback with the mutable seenIds set). -/
def dedupCol (seen : List String) : List KanbanItem → List KanbanItem × List String
  | [] => ([], seen)
  | i :: rest =>
    if i.id ∈ seen then dedupCol seen rest
    else
      let p := dedupCol (i.id :: seen) rest
      (i :: p.1, p.2)

/-- Source: ensureUniqueItems (KanbanBoard.tsx lines 87-103).  Scans the
columns in the fixed order todo, doing, done, temp, dropping every card whose
identity was already seen (keeping the first occurrence in scan order). -/
def ensureUniqueItems (b : BoardState) : BoardState :=
  let p1 := dedupCol [] b.todo
  let p2 := dedupCol p1.2 b.doing
  let p3 := dedupCol p2.2 b.done
  let p4 := dedupCol p3.2 b.temp
  ⟨p1.1, p2.1, p3.1, p4.1⟩

/-- The columns of the board as a list, in scan order. -/
def boardCols (b : BoardState) : List (List KanbanItem) :=
  [b.todo, b.doing, b.done, b.temp]

/-- Rebuilding a board from a four-element column list. -/
def boardOfCols : List (List KanbanItem) → BoardState
  | [t, d, dn, tp] => ⟨t, d, dn, tp⟩
  | _ => initialBoard

/-- ensureUniqueItems expressed as a column-by-column fold, for proofs. -/
def dedupColsList (seen : List String) : List (List KanbanItem) → List (List KanbanItem)
  | [] => []
  | l :: rest => (dedupCol seen l).1 :: dedupColsList (dedupCol seen l).2 rest

/-- The seen set after folding dedupCol over a list of columns. -/
def dedupSeen (seen : List String) : List (List KanbanItem) → List String
  | [] => seen
  | l :: rest => dedupSeen (dedupCol seen l).2 rest

/-- All identities of a list of columns, in order. -/
def allIds (css : List (List KanbanItem)) : List String :=
  css.flatten.map (fun i => i.id)

/-- JS Array.prototype.findIndex: the index of the first element satisfying
the predicate, and -1 when none does. -/
def jsFindIndex (p : α → Bool) : List α → Int
  | [] => -1
  | a :: l =>
    if p a then 0
    else
      let r := jsFindIndex p l
      if r < 0 then -1 else r + 1

/-- JS array indexing arr[i]: none models the value undefined obtained for a
negative or out-of-range index. -/
def jsGet (l : List α) (i : Int) : Option α :=
  if i < 0 then none else l.get? i.toNat

/-- The start-index normalisation of JS Array.prototype.splice: a negative
start counts from the end (clamped at 0), a too-large start is clamped to the
length. -/
def jsClampIndex (len : Nat) (i : Int) : Nat :=
  if i < 0 then ((len : Int) + i).toNat else min i.toNat len

/-- arrayMove from dnd-kit sortable, as used for same-column reordering:
newArray.splice(to < 0 ? newArray.length + to : to, 0, newArray.splice(from,
1)[0]).  JS evaluates the first argument (using the original length) before
the inner splice removes the element.  When the inner splice removes nothing
(out-of-range from on an empty slice) JS would insert undefined; this model
inserts nothing instead, which agrees with the source on every input the
drag-end handler can produce (the handler only reaches arrayMove with two
distinct findIndex results, which forces the removal to succeed). -/
def arrayMove (l : List α) (f t : Int) : List α :=
  let pos : Int := if t < 0 then (l.length : Int) + t else t
  let s := jsClampIndex l.length f
  let removed := l.get? s
  let rest := l.take s ++ l.drop (s + 1)
  let s2 := jsClampIndex rest.length pos
  rest.take s2 ++ removed.toList ++ rest.drop s2

/-- A raw link object as stored in the database (the links JSON column): the
label may be absent. -/
structure LinkJson where
  label : Option String
  href : String
deriving DecidableEq, Repr

/-- A raw card row as fetched from the kanban_cards table or delivered in a
realtime payload.  The id is already a string (the component always applies
String to it); column_key is none when the stored value is null. -/
structure CardRow where
  id : String
  title : String
  description : Option String
  links : Option (List LinkJson)
  column_key : Option String
  position : Int
deriving DecidableEq, Repr

/-- Converting a raw row to a board card, as done identically in fetchData,
the INSERT and UPDATE subscription cases, and handleAdd: links get the
default label "Link i+1", a null description becomes undefined. -/
def rowToItem (r : CardRow) : KanbanItem :=
  ⟨r.id, r.title, r.description,
   r.links.map (fun ls => ls.mapIdx (fun i l => ⟨l.label.getD ("Link " ++ toString (i + 1)), l.href⟩))⟩

/-- The effective column key of a row: a missing key defaults to todo via the
nullish-coalescing operator, while a present but invalid string is NOT
defaulted (the as-cast does not check at runtime) and makes the handler index
a nonexistent board property, so downstream code throws; none marks that
case. -/
def effectiveKey (k : Option String) : Option ColumnKey :=
  match k with
  | none => some .todo
  | some s => keyOfString s

/-- The property names a plain object literal inherits from Object.prototype.
The JS in-operator also reports these as present on the board object even
though they are not own keys. -/
def protoProps : List String :=
  ["constructor", "hasOwnProperty", "isPrototypeOf", "propertyIsEnumerable",
   "toLocaleString", "toString", "valueOf", "__defineGetter__",
   "__defineSetter__", "__lookupGetter__", "__lookupSetter__", "__proto__"]

/-- The JS membership test (id in board): true for the four own keys of the
board literal and, because the in-operator walks the prototype chain, also
for every property name inherited from Object.prototype. -/
def jsInBoard (s : String) : Bool :=
  (keyOfString s).isSome || decide (s ∈ protoProps)

/-- The value findContainer returns when the in-test succeeds: the source
casts the identity string to ColumnKey without a runtime check, so a string
that passes the in-test only through the prototype chain (toString,
hasOwnProperty, ...) yields a phantom container that is none of the four
real columns; indexing the board with it gives undefined. -/
inductive Container where
  | col (c : ColumnKey)
  | phantom (s : String)
deriving DecidableEq, Repr

/-- The unchecked (id as ColumnKey) cast applied after a successful in-test. -/
def containerOfString (s : String) : Container :=
  match keyOfString s with
  | some k => Container.col k
  | none => Container.phantom s

/-- Source: findContainer (KanbanBoard.tsx lines 379-391).  First tests
(id in board): true for the four column keys and for the Object.prototype
property names, in which case the string itself is returned as the
container (a real column for the four keys, a phantom container otherwise);
only when the in-test fails are the columns scanned in scan order for a
card with that identity. -/
def findContainer (id : String) (b : BoardState) : Option Container :=
  if jsInBoard id then some (containerOfString id)
  else if b.todo.any (fun i => i.id == id) then some (Container.col .todo)
  else if b.doing.any (fun i => i.id == id) then some (Container.col .doing)
  else if b.done.any (fun i => i.id == id) then some (Container.col .done)
  else if b.temp.any (fun i => i.id == id) then some (Container.col .temp)
  else none

/-- The component state the error-handling claims talk about: the board, the
dismissible error banner text, and whether the add dialog is open. -/
structure ComponentState where
  board : BoardState
  error : Option String
  addOpen : Bool
deriving DecidableEq, Repr

/-- A remote write issued by a handler. -/
inductive RemoteCall where
  | deleteCard (id : String)
  | updatePosition (id : String) (position : Nat)
deriving DecidableEq, Repr

/-- Source: persistColumnPositions (lines 510-528), restricted to the remote
calls it issues: one position update per card of the given sequence, with the
position equal to the index; no call at all when the sequence is empty.  The
sequence passed in is the one the closure reads, which is the board of the
render in which the handler was created. -/
def persistCalls (items : List KanbanItem) : List RemoteCall :=
  if items.length = 0 then []
  else items.mapIdx (fun idx it => RemoteCall.updatePosition it.id idx)

/-- Source: handleAdd (lines 393-432), given the outcome of the awaited
remote insert: on success (some returned row) the returned canonical record
is prepended to the chosen column, the board deduplicated and the dialog
closed; the error banner is never touched by this handler, and on failure
(none) nothing at all happens to the component state. -/
def handleAdd (result : Option CardRow) (newColumn : ColumnKey) (st : ComponentState) :
    ComponentState :=
  match result with
  | some row =>
    ⟨ensureUniqueItems (prependCol newColumn (rowToItem row) st.board), st.error, false⟩
  | none => st

/-- Source: handleDelete (lines 434-458), given the outcome of the awaited
remote delete.  The remote delete is awaited FIRST; only when it succeeds is
the card removed from the local column (followed by a position-persist pass
that reads the stale pre-removal column from the closure).  On failure the
error banner is set and the board is left untouched.  The second component
lists the remote calls issued, in order. -/
def handleDelete (ok : Bool) (msg : String) (col : ColumnKey) (id : String)
    (st : ComponentState) : ComponentState × List RemoteCall :=
  if ok then
    (⟨ensureUniqueItems (setCol col ((getCol col st.board).filter (fun i => !(i.id == id))) st.board),
      none, st.addOpen⟩,
     RemoteCall.deleteCard id :: persistCalls (getCol col st.board))
  else
    (⟨st.board, some ("Failed to delete task: " ++ msg), st.addOpen⟩,
     [RemoteCall.deleteCard id])

/-- Source: handleEdit (lines 460-498), given the outcome of the awaited
remote update: on success every card of the column with the edited identity
is replaced by the merged record (the spread of the full updated item over
the old one, which is the updated item itself), then the board is
deduplicated; on failure the error banner is set and the board untouched. -/
def handleEditBoard (col : ColumnKey) (updated : KanbanItem) (b : BoardState) : BoardState :=
  ensureUniqueItems
    (setCol col ((getCol col b).map (fun i => if i.id == updated.id then updated else i)) b)

/-- The preview insertion index computed by handleDragOver (lines 300-310):
overItems.length + 1 when hovering the target column itself (its empty drop
area), otherwise the index of the hovered card plus one when the pointer is
below its midpoint, and again overItems.length + 1 when the hovered id is in
neither case found. -/
def dragOverNewIndex (overIsContainer isBelowOverItem : Bool) (overIndex : Int)
    (overLen : Nat) : Nat :=
  if overIsContainer then overLen + 1
  else if 0 ≤ overIndex then (overIndex + (if isBelowOverItem then 1 else 0)).toNat
  else overLen + 1

/-- The new target-column sequence built by handleDragOver (lines 315-319):
the slice before the insertion index, the element prev[activeContainer]
[activeIndex] (undefined, i.e. none, when activeIndex is -1), and the slice
after.  Entries are Options so that the possible undefined entry of the JS
array is represented faithfully. -/
def dragOverNewOverItems (activeItems overItems : List KanbanItem) (activeIndex : Int)
    (newIndex : Nat) : List (Option KanbanItem) :=
  (overItems.map some).take newIndex ++ jsGet activeItems activeIndex ::
    (overItems.map some).drop newIndex

/-- Source: handleDragOver (lines 277-323), given the pointer geometry as the
boolean isBelowOverItem.  Containers are resolved with findContainer; when
they differ, the dragged identity is filtered out of the source column and
the element found at its findIndex in the source column is inserted into the
target column at the computed index.  A none entry (JS undefined, only
produced when the dragged identity resolves to a column it is not actually
stored in) is dropped when storing the column back: the JS board would hold
an undefined entry there on which every later handler and render throws, so
no further observable state carries it.  A phantom container (an identity
passing the in-test only via the prototype chain) makes the JS updater read
board[phantom] = undefined and throw before producing a state when the two
containers differ, and skips the branch when they are equal; either way the
board stays as it is. -/
def handleDragOver (isBelowOverItem : Bool) (activeId overId : String) (b : BoardState) :
    BoardState :=
  match findContainer activeId b, findContainer overId b with
  | some (Container.col activeContainer), some (Container.col overContainer) =>
    if activeContainer = overContainer then b
    else
      let activeItems := getCol activeContainer b
      let overItems := getCol overContainer b
      let activeIndex := jsFindIndex (fun i => i.id == activeId) activeItems
      let overIndex := jsFindIndex (fun i => i.id == overId) overItems
      let newIndex := dragOverNewIndex (jsInBoard overId) isBelowOverItem overIndex
        overItems.length
      setCol overContainer
        ((dragOverNewOverItems activeItems overItems activeIndex newIndex).reduceOption)
        (setCol activeContainer (activeItems.filter (fun i => !(i.id == activeId))) b)
  | some _, some _ => b
  | _, _ => b

/-- Source: handleDragEnd (lines 325-377).  Same container: when the two
findIndex results differ, the column is rearranged with arrayMove (a pure
local reorder; the follow-up position persistence issues only remote calls).
Different containers: when the dragged card is found in its resolved source
column, it is filtered out of the source, appended to the target, and the
board deduplicated (the remote column update runs in the background and does
not touch local state).  A phantom container makes the handler or its
updater index the board with a nonexistent key and throw (undefined has no
findIndex, find or spread) before any state update, so the board stays as
it is. -/
def handleDragEnd (activeId overId : String) (b : BoardState) : BoardState :=
  match findContainer activeId b, findContainer overId b with
  | some (Container.col activeContainer), some (Container.col overContainer) =>
    if activeContainer = overContainer then
      let activeIndex := jsFindIndex (fun i => i.id == activeId) (getCol activeContainer b)
      let overIndex := jsFindIndex (fun i => i.id == overId) (getCol overContainer b)
      if activeIndex ≠ overIndex then
        setCol overContainer (arrayMove (getCol overContainer b) activeIndex overIndex) b
      else b
    else
      match (getCol activeContainer b).find? (fun i => i.id == activeId) with
      | some activeItem =>
        ensureUniqueItems
          (setCol overContainer (getCol overContainer b ++ [activeItem])
            (setCol activeContainer
              ((getCol activeContainer b).filter (fun i => !(i.id == activeId))) b))
      | none => b
  | some _, some _ => b
  | _, _ => b

/-- Source: the INSERT case of the kanban_cards_changes subscription handler
(lines 165-188): the new record is prepended to its declared column and the
board deduplicated.  An invalid declared column key makes the JS updater
throw before producing a state, modelled as leaving the board unchanged. -/
def handleRealtimeInsert (rec : CardRow) (b : BoardState) : BoardState :=
  match effectiveKey rec.column_key with
  | some k => ensureUniqueItems (prependCol k (rowToItem rec) b)
  | none => b

/-- Source: the UPDATE case of the subscription handler (lines 189-228): an
identity present in the pending-write marker set (localUpdateRef) is skipped
entirely; otherwise the identity is removed from every column, the updated
record appended at the end of its declared column, and the board
deduplicated. -/
def handleRealtimeUpdate (markers : List String) (rec : CardRow) (b : BoardState) :
    BoardState :=
  if rec.id ∈ markers then b
  else
    match effectiveKey rec.column_key with
    | some k => ensureUniqueItems (appendToCol k (rowToItem rec) (removeIdBoard rec.id b))
    | none => b

/-- Source: the DELETE case of the subscription handler (lines 229-241): the
identity is removed from every column and the board deduplicated. -/
def handleRealtimeDelete (id : String) (b : BoardState) : BoardState :=
  ensureUniqueItems (removeIdBoard id b)

/-- Source: fetchData (lines 109-147), the card-partition loop: each fetched
card is appended to its effective column.  A card whose stored column key is
present but not one of the four valid keys makes the loop throw (spreading
the undefined board property), which the surrounding try-catch turns into the
load-error outcome. -/
def partitionCards (b : BoardState) : List CardRow → Except String BoardState
  | [] => .ok b
  | c :: rest =>
    match effectiveKey c.column_key with
    | some k => partitionCards (appendToCol k (rowToItem c) b) rest
    | none => .error "Failed to load board data. Please refresh the page."

/-- Source: fetchData (lines 109-147): the columns query only re-initialises
the four (already empty) buckets, then the cards (already ordered by position
by the query) are partitioned into their columns and the result deduplicated
and set as the initial board.  The error outcome carries the load-error
banner text and leaves the board empty. -/
def fetchData (cards : List CardRow) : Except String BoardState :=
  (partitionCards initialBoard cards).map ensureUniqueItems

/-- The partition a successful initial load produces, described directly: for
each column, the fetched cards whose effective key is that column, in fetch
order. -/
def partitionByKey (cards : List CardRow) : BoardState :=
  ⟨(cards.filter (fun c => effectiveKey c.column_key == some .todo)).map rowToItem,
   (cards.filter (fun c => effectiveKey c.column_key == some .doing)).map rowToItem,
   (cards.filter (fun c => effectiveKey c.column_key == some .done)).map rowToItem,
   (cards.filter (fun c => effectiveKey c.column_key == some .temp)).map rowToItem⟩

/-- One user-gesture or ingestion step of the board, with every environmental
input (remote outcomes, marker-set contents, pointer geometry, event
payloads) carried by the operation. -/
inductive BoardOp where
  | addCard (result : Option CardRow) (newColumn : ColumnKey)
  | deleteCard (ok : Bool) (col : ColumnKey) (id : String)
  | editCard (ok : Bool) (col : ColumnKey) (updated : KanbanItem)
  | dragOver (isBelowOverItem : Bool) (activeId overId : String)
  | dragEnd (activeId overId : String)
  | realtimeInsert (rec : CardRow)
  | realtimeUpdate (markers : List String) (rec : CardRow)
  | realtimeDelete (id : String)
deriving Repr

/-- The board transition of one operation: exactly the setBoard updater the
corresponding handler applies (failed remote writes leave the board
untouched: handleAdd has no failure branch, handleDelete and handleEdit
return before their setBoard call). -/
def applyOp (b : BoardState) : BoardOp → BoardState
  | .addCard none _ => b
  | .addCard (some row) col => ensureUniqueItems (prependCol col (rowToItem row) b)
  | .deleteCard false _ _ => b
  | .deleteCard true col id =>
    ensureUniqueItems (setCol col ((getCol col b).filter (fun i => !(i.id == id))) b)
  | .editCard false _ _ => b
  | .editCard true col updated => handleEditBoard col updated b
  | .dragOver g activeId overId => handleDragOver g activeId overId b
  | .dragEnd activeId overId => handleDragEnd activeId overId b
  | .realtimeInsert rec => handleRealtimeInsert rec b
  | .realtimeUpdate markers rec => handleRealtimeUpdate markers rec b
  | .realtimeDelete id => handleRealtimeDelete id b

/-- Running a sequence of operations from the empty initial board. -/
def runOps (ops : List BoardOp) : BoardState :=
  ops.foldl applyOp initialBoard

/-! ### Concrete fixtures used by witnesses and counterexamples -/

/-- A concrete card. -/
def wItemA : KanbanItem :=
  ⟨"1", "Alpha", none, none⟩

/-- A concrete card. -/
def wItemB : KanbanItem :=
  ⟨"2", "Beta", none, none⟩

/-- A concrete card whose identity collides with a column key. -/
def wItemKey : KanbanItem :=
  ⟨"todo", "Trick", none, none⟩

/-- A concrete duplicate-free board: card 1 in todo, card 2 in done. -/
def wBoard : BoardState :=
  ⟨[wItemA], [], [wItemB], []⟩

/-- A concrete update payload for card 1, declaring column doing. -/
def wRec : CardRow :=
  ⟨"1", "Updated", none, none, some "doing", 0⟩

/-- An insert payload whose identity 2 already lives in the done column but
whose declared column is todo. -/
def cexInsertRec : CardRow :=
  ⟨"2", "New title", none, none, some "todo", 0⟩

/-- A fetched row with a stored column key that is not one of the four valid
keys. -/
def cexBadRow : CardRow :=
  ⟨"7", "Stray", none, none, some "backlog", 0⟩

/-- A fetched row with a missing column key. -/
def wNullKeyRow : CardRow :=
  ⟨"8", "Nokey", none, none, none, 1⟩

/-- A component state holding only card 1 in todo, with no error banner. -/
def cexDelState : ComponentState :=
  ⟨⟨[wItemA], [], [], []⟩, none, false⟩

/-- A component state with an empty board, no error banner, add dialog open. -/
def cexAddState : ComponentState :=
  ⟨initialBoard, none, true⟩

/-- A duplicate-free board where a card whose id is the string todo sits in
the doing column. -/
def wBoardKey : BoardState :=
  ⟨[], [wItemKey], [wItemB], []⟩

/-! ## Counting toolkit -/

theorem countId_nil (a : String) : countId [] a = 0 := rfl

theorem countId_cons (i : KanbanItem) (l : List KanbanItem) (a : String) :
    countId (i :: l) a = countId l a + if i.id = a then 1 else 0 := by
  simp [countId, List.countP_cons]

theorem countId_append (l₁ l₂ : List KanbanItem) (a : String) :
    countId (l₁ ++ l₂) a = countId l₁ a + countId l₂ a := by
  simp [countId, List.countP_append]

theorem countId_eq_zero {l : List KanbanItem} {a : String} :
    countId l a = 0 ↔ ∀ i ∈ l, i.id ≠ a := by
  simp [countId, List.countP_eq_zero]

theorem countId_pos {l : List KanbanItem} {a : String} :
    0 < countId l a ↔ ∃ i ∈ l, i.id = a := by
  simp [countId, List.countP_pos_iff]

theorem mem_idsOf {l : List KanbanItem} {a : String} :
    a ∈ idsOf l ↔ ∃ i ∈ l, i.id = a := by
  simp [idsOf]

theorem countId_pos_of_mem_idsOf {l : List KanbanItem} {a : String} (h : a ∈ idsOf l) :
    0 < countId l a :=
  countId_pos.mpr (mem_idsOf.mp h)

theorem countId_eq_zero_of_not_mem_idsOf {l : List KanbanItem} {a : String}
    (h : a ∉ idsOf l) : countId l a = 0 := by
  rcases Nat.eq_zero_or_pos (countId l a) with h0 | h0
  · exact h0
  · exact absurd (mem_idsOf.mpr (countId_pos.mp h0)) h

theorem countId_filter_ne (l : List KanbanItem) (s a : String) :
    countId (l.filter (fun i => !(i.id == s))) a = if a = s then 0 else countId l a := by
  rw [countId, List.countP_filter]
  by_cases ha : a = s
  · subst ha
    rw [if_pos rfl]
    apply List.countP_eq_zero.mpr
    intro i _ hcontra
    simp at hcontra
  · rw [if_neg ha, countId]
    apply List.countP_congr
    intro i _
    constructor
    · intro h
      simp at h ⊢
      exact h.1
    · intro h
      simp at h ⊢
      exact ⟨h, fun he => ha (he ▸ h.symm)⟩

theorem countId_filter_self (l : List KanbanItem) (s : String) :
    countId (l.filter (fun i => !(i.id == s))) s = 0 := by
  simp [countId_filter_ne]

theorem countId_le_of_filter (l : List KanbanItem) (p : KanbanItem → Bool) (a : String) :
    countId (l.filter p) a ≤ countId l a := by
  induction l with
  | nil => simp
  | cons i rest ih =>
    by_cases hp : p i <;> simp [List.filter_cons, hp, countId_cons] <;> omega

theorem idsOf_nodup_iff_countId (l : List KanbanItem) :
    (idsOf l).Nodup ↔ ∀ a, countId l a ≤ 1 := by
  constructor
  · intro h a
    induction l with
    | nil => simp [countId]
    | cons i rest ih =>
      simp only [idsOf, List.map_cons, List.nodup_cons] at h
      rcases h with ⟨hni, hnd⟩
      have hrest := ih hnd
      by_cases hia : i.id = a
      · subst hia
        have : countId rest i.id = 0 := by
          apply countId_eq_zero.mpr
          intro j hj hji
          exact hni (hji ▸ List.mem_map_of_mem (fun x => x.id) hj)
        simp [countId_cons, this]
      · simp [countId_cons, hia]
        omega
  · intro h
    induction l with
    | nil => simp [idsOf]
    | cons i rest ih =>
      simp only [idsOf, List.map_cons, List.nodup_cons]
      constructor
      · intro hmem
        have h1 : 0 < countId rest i.id := countId_pos_of_mem_idsOf hmem
        have h2 := h i.id
        simp [countId_cons] at h2
        omega
      · apply ih
        intro a
        have := h a
        simp [countId_cons] at this
        omega

/-! ## Board accessor lemmas -/

theorem getCol_setCol_same (c : ColumnKey) (l : List KanbanItem) (b : BoardState) :
    getCol c (setCol c l b) = l := by
  cases c <;> rfl

theorem getCol_setCol_ne {c c' : ColumnKey} (h : c' ≠ c) (l : List KanbanItem)
    (b : BoardState) : getCol c' (setCol c l b) = getCol c' b := by
  cases c <;> cases c' <;> first | rfl | exact absurd rfl h

theorem countBoard_eq_sum (b : BoardState) (a : String) :
    countBoard b a =
      countId b.todo a + countId b.doing a + countId b.done a + countId b.temp a := by
  simp [countBoard, allItems, countId_append]
  omega

theorem countBoard_setCol (c : ColumnKey) (l : List KanbanItem) (b : BoardState) (a : String) :
    countBoard (setCol c l b) a = countBoard b a - countId (getCol c b) a + countId l a := by
  cases c <;> simp [countBoard_eq_sum, setCol, getCol] <;> omega

theorem uniqueBoard_iff_nodup (b : BoardState) :
    UniqueBoard b ↔ (boardIds b).Nodup := by
  rw [boardIds, idsOf_nodup_iff_countId]
  rfl

theorem countId_col_le_countBoard (b : BoardState) (c : ColumnKey) (a : String) :
    countId (getCol c b) a ≤ countBoard b a := by
  have := countBoard_eq_sum b a
  cases c <;> simp [getCol] <;> omega

/-! ## dedupCol and ensureUniqueItems machinery -/

theorem dedupCol_mem_seen (l : List KanbanItem) (seen : List String) (x : String) :
    x ∈ (dedupCol seen l).2 ↔ x ∈ seen ∨ x ∈ idsOf l := by
  induction l generalizing seen with
  | nil => simp [dedupCol, idsOf]
  | cons i rest ih =>
    by_cases hi : i.id ∈ seen
    · rw [dedupCol, if_pos hi, ih]
      simp only [idsOf, List.map_cons, List.mem_cons]
      constructor
      · rintro (h | h)
        · exact Or.inl h
        · exact Or.inr (Or.inr h)
      · rintro (h | h | h)
        · exact Or.inl h
        · exact Or.inl (h ▸ hi)
        · exact Or.inr h
    · rw [dedupCol, if_neg hi]
      simp only [ih, List.mem_cons, idsOf, List.map_cons]
      tauto

theorem dedupCol_kept_nodup (l : List KanbanItem) (seen : List String) :
    (idsOf (dedupCol seen l).1).Nodup ∧ ∀ x ∈ idsOf (dedupCol seen l).1, x ∉ seen := by
  induction l generalizing seen with
  | nil => simp [dedupCol, idsOf]
  | cons i rest ih =>
    by_cases hi : i.id ∈ seen
    · rw [dedupCol, if_pos hi]
      exact ih seen
    · rw [dedupCol, if_neg hi]
      rcases ih (i.id :: seen) with ⟨hnd, hfresh⟩
      refine ⟨?_, ?_⟩
      · simp only [idsOf, List.map_cons, List.nodup_cons]
        refine ⟨fun hmem => ?_, hnd⟩
        exact hfresh i.id hmem (List.mem_cons_self i.id seen)
      · intro x hx
        simp only [idsOf, List.map_cons, List.mem_cons] at hx
        rcases hx with hx | hx
        · exact hx ▸ hi
        · intro hxs
          exact hfresh x hx (List.mem_cons_of_mem i.id hxs)

theorem dedupCol_eq_filter {l : List KanbanItem} (hnd : (idsOf l).Nodup)
    (seen : List String) :
    (dedupCol seen l).1 = l.filter (fun i => !decide (i.id ∈ seen)) := by
  induction l generalizing seen with
  | nil => simp [dedupCol]
  | cons i rest ih =>
    simp only [idsOf, List.map_cons, List.nodup_cons] at hnd
    rcases hnd with ⟨hni, hnd⟩
    by_cases hi : i.id ∈ seen
    · rw [dedupCol, if_pos hi, List.filter_cons]
      have hb : (!decide (i.id ∈ seen)) = false := by simp [hi]
      rw [hb, if_neg (by simp)]
      exact ih hnd seen
    · rw [dedupCol, if_neg hi, List.filter_cons]
      have hb : (!decide (i.id ∈ seen)) = true := by simp [hi]
      rw [hb, if_pos rfl]
      show i :: (dedupCol (i.id :: seen) rest).1 = _
      rw [ih hnd (i.id :: seen)]
      congr 1
      apply List.filter_congr
      intro j hj
      have hji : j.id ≠ i.id := by
        intro h
        exact hni (h ▸ List.mem_map_of_mem (fun x => x.id) hj)
      simp [List.mem_cons, hji]

theorem dedupCol_kept_subset (l : List KanbanItem) (seen : List String) {x : String}
    (hx : x ∈ idsOf (dedupCol seen l).1) : x ∈ idsOf l := by
  induction l generalizing seen with
  | nil => simpa [dedupCol] using hx
  | cons i rest ih =>
    by_cases hi : i.id ∈ seen
    · rw [dedupCol, if_pos hi] at hx
      simp only [idsOf, List.map_cons, List.mem_cons]
      exact Or.inr (ih seen hx)
    · rw [dedupCol, if_neg hi] at hx
      simp only [idsOf, List.map_cons, List.mem_cons] at hx ⊢
      rcases hx with hx | hx
      · exact Or.inl hx
      · exact Or.inr (ih (i.id :: seen) hx)

theorem allIds_cons (l : List KanbanItem) (css : List (List KanbanItem)) :
    allIds (l :: css) = idsOf l ++ allIds css := by
  simp [allIds, idsOf]

theorem dedupSeen_mem (css : List (List KanbanItem)) (seen : List String) (x : String) :
    x ∈ dedupSeen seen css ↔ x ∈ seen ∨ x ∈ allIds css := by
  induction css generalizing seen with
  | nil => simp [dedupSeen, allIds]
  | cons l rest ih =>
    rw [dedupSeen, ih, dedupCol_mem_seen, allIds_cons]
    simp [List.mem_append]
    tauto

theorem dedupColsList_append (css₁ css₂ : List (List KanbanItem)) (seen : List String) :
    dedupColsList seen (css₁ ++ css₂) =
      dedupColsList seen css₁ ++ dedupColsList (dedupSeen seen css₁) css₂ := by
  induction css₁ generalizing seen with
  | nil => simp [dedupColsList, dedupSeen]
  | cons l rest ih => simp [dedupColsList, dedupSeen, ih]

theorem dedupColsList_id {css : List (List KanbanItem)} (hnd : (allIds css).Nodup)
    {seen : List String} (hfresh : ∀ x ∈ allIds css, x ∉ seen) :
    dedupColsList seen css = css := by
  induction css generalizing seen with
  | nil => rfl
  | cons l rest ih =>
    rw [allIds_cons] at hnd hfresh
    rw [List.nodup_append] at hnd
    rcases hnd with ⟨hl, hrest, hdisj⟩
    rw [dedupColsList]
    have h1 : (dedupCol seen l).1 = l := by
      rw [dedupCol_eq_filter hl seen]
      apply List.filter_eq_self.mpr
      intro i hi
      have : i.id ∉ seen :=
        hfresh i.id (List.mem_append_left _ (List.mem_map_of_mem (fun x => x.id) hi))
      simp [this]
    rw [h1]
    congr 1
    apply ih hrest
    intro x hx
    rw [dedupCol_mem_seen]
    push_neg
    refine ⟨fun hxs => hfresh x (List.mem_append_right _ hx) hxs, fun hxl => hdisj hxl hx⟩

theorem dedupColsList_removeId {css : List (List KanbanItem)} {id₀ : String}
    (hnd : (allIds css).Nodup) {seen : List String}
    (hseen : ∀ x ∈ allIds css, x ∈ seen → x = id₀) (hid : id₀ ∈ seen) :
    dedupColsList seen css = css.map (fun l => l.filter (fun i => !(i.id == id₀))) := by
  induction css generalizing seen with
  | nil => rfl
  | cons l rest ih =>
    rw [allIds_cons] at hnd hseen
    rw [List.nodup_append] at hnd
    rcases hnd with ⟨hl, hrest, hdisj⟩
    rw [dedupColsList, List.map_cons]
    have h1 : (dedupCol seen l).1 = l.filter (fun i => !(i.id == id₀)) := by
      rw [dedupCol_eq_filter hl seen]
      apply List.filter_congr
      intro i hi
      have hmem : i.id ∈ idsOf l := List.mem_map_of_mem (fun x => x.id) hi
      by_cases hin : i.id ∈ seen
      · have : i.id = id₀ := hseen i.id (List.mem_append_left _ hmem) hin
        simp [this, hid]
      · have : i.id ≠ id₀ := fun h => hin (h ▸ hid)
        simp [hin, this]
    rw [h1]
    congr 1
    apply ih hrest
    · intro x hx hxs
      rw [dedupCol_mem_seen] at hxs
      rcases hxs with hxs | hxs
      · exact hseen x (List.mem_append_right _ hx) hxs
      · exact absurd hx (hdisj hxs)
    · rw [dedupCol_mem_seen]
      exact Or.inl hid

theorem dedupColsList_nodup (css : List (List KanbanItem)) (seen : List String) :
    (allIds (dedupColsList seen css)).Nodup ∧
      ∀ x ∈ allIds (dedupColsList seen css), x ∉ seen := by
  induction css generalizing seen with
  | nil => simp [dedupColsList, allIds]
  | cons l rest ih =>
    rw [dedupColsList, allIds_cons]
    rcases dedupCol_kept_nodup l seen with ⟨hnd1, hfresh1⟩
    rcases ih (dedupCol seen l).2 with ⟨hnd2, hfresh2⟩
    constructor
    · rw [List.nodup_append]
      refine ⟨hnd1, hnd2, ?_⟩
      intro x hx1 hx2
      have : x ∈ (dedupCol seen l).2 := by
        rw [dedupCol_mem_seen]
        exact Or.inr (dedupCol_kept_subset l seen hx1)
      exact hfresh2 x hx2 this
    · intro x hx
      rw [List.mem_append] at hx
      rcases hx with hx | hx
      · exact hfresh1 x hx
      · intro hxs
        apply hfresh2 x hx
        rw [dedupCol_mem_seen]
        exact Or.inl hxs

theorem ensure_boardCols (b : BoardState) :
    boardCols (ensureUniqueItems b) = dedupColsList [] (boardCols b) := rfl

theorem boardOfCols_boardCols (b : BoardState) : boardOfCols (boardCols b) = b := rfl

theorem boardIds_eq_allIds (b : BoardState) : boardIds b = allIds (boardCols b) := by
  simp [boardIds, allIds, boardCols, idsOf, allItems]

theorem ensureUnique_unique (b : BoardState) : UniqueBoard (ensureUniqueItems b) := by
  rw [uniqueBoard_iff_nodup, boardIds_eq_allIds, ensure_boardCols]
  exact (dedupColsList_nodup (boardCols b) []).1

theorem ensure_eq_self {b : BoardState} (hU : UniqueBoard b) : ensureUniqueItems b = b := by
  have hnd : (allIds (boardCols b)).Nodup := by
    rw [← boardIds_eq_allIds]
    exact (uniqueBoard_iff_nodup b).mp hU
  calc ensureUniqueItems b = boardOfCols (boardCols (ensureUniqueItems b)) :=
        (boardOfCols_boardCols _).symm
    _ = boardOfCols (dedupColsList [] (boardCols b)) := by rw [ensure_boardCols]
    _ = boardOfCols (boardCols b) := by
        rw [dedupColsList_id hnd (by intro x _ hx; cases hx)]
    _ = b := boardOfCols_boardCols b

/-! ## Freshness and preservation helpers -/

theorem countBoard_eq_countId_allItems (b : BoardState) (a : String) :
    countBoard b a = countId (allItems b) a := rfl

theorem boardIds_eq_idsOf_allItems (b : BoardState) : boardIds b = idsOf (allItems b) := rfl

theorem mem_boardIds_iff_pos (b : BoardState) (a : String) :
    a ∈ boardIds b ↔ 0 < countBoard b a := by
  rw [boardIds_eq_idsOf_allItems, countBoard_eq_countId_allItems, mem_idsOf, countId_pos]

theorem countBoard_eq_zero_of_not_mem {b : BoardState} {a : String} (h : a ∉ boardIds b) :
    countBoard b a = 0 := by
  rcases Nat.eq_zero_or_pos (countBoard b a) with h0 | h0
  · exact h0
  · exact absurd ((mem_boardIds_iff_pos b a).mpr h0) h

theorem countBoard_prependCol (c : ColumnKey) (it : KanbanItem) (b : BoardState)
    (a : String) :
    countBoard (prependCol c it b) a = countBoard b a + if it.id = a then 1 else 0 := by
  rw [prependCol, countBoard_setCol, countId_cons]
  have := countId_col_le_countBoard b c a
  omega

theorem countBoard_appendToCol (c : ColumnKey) (it : KanbanItem) (b : BoardState)
    (a : String) :
    countBoard (appendToCol c it b) a = countBoard b a + if it.id = a then 1 else 0 := by
  rw [appendToCol, countBoard_setCol, countId_append, countId_cons, countId_nil]
  have := countId_col_le_countBoard b c a
  omega

theorem unique_prependCol_fresh {b : BoardState} (hU : UniqueBoard b) {it : KanbanItem}
    (hfresh : it.id ∉ boardIds b) (c : ColumnKey) : UniqueBoard (prependCol c it b) := by
  intro a
  rw [countBoard_prependCol]
  by_cases ha : it.id = a
  · subst ha
    rw [countBoard_eq_zero_of_not_mem hfresh]
    simp
  · simpa [ha] using hU a

theorem unique_appendToCol_fresh {b : BoardState} (hU : UniqueBoard b) {it : KanbanItem}
    (hfresh : it.id ∉ boardIds b) (c : ColumnKey) : UniqueBoard (appendToCol c it b) := by
  intro a
  rw [countBoard_appendToCol]
  by_cases ha : it.id = a
  · subst ha
    rw [countBoard_eq_zero_of_not_mem hfresh]
    simp
  · simpa [ha] using hU a

theorem countBoard_removeIdBoard (s : String) (b : BoardState) (a : String) :
    countBoard (removeIdBoard s b) a = if a = s then 0 else countBoard b a := by
  rw [countBoard_eq_sum, countBoard_eq_sum]
  simp only [removeIdBoard]
  rw [countId_filter_ne, countId_filter_ne, countId_filter_ne, countId_filter_ne]
  by_cases ha : a = s <;> simp [ha]

theorem unique_removeIdBoard {b : BoardState} (hU : UniqueBoard b) (s : String) :
    UniqueBoard (removeIdBoard s b) := by
  intro a
  rw [countBoard_removeIdBoard]
  by_cases ha : a = s
  · simp [ha]
  · simpa [ha] using hU a

theorem not_mem_boardIds_removeIdBoard (s : String) (b : BoardState) :
    s ∉ boardIds (removeIdBoard s b) := by
  rw [mem_boardIds_iff_pos, countBoard_removeIdBoard]
  simp

theorem unique_setCol_filter {b : BoardState} (hU : UniqueBoard b) (c : ColumnKey)
    (p : KanbanItem → Bool) : UniqueBoard (setCol c ((getCol c b).filter p) b) := by
  intro a
  rw [countBoard_setCol]
  have h1 := countId_le_of_filter (getCol c b) p a
  have h2 := countId_col_le_countBoard b c a
  have := hU a
  omega

/-! ## arrayMove is a permutation -/

theorem perm_take_cons_drop (rest : List α) (x : α) (n : Nat) :
    List.Perm (rest.take n ++ x :: rest.drop n) (x :: rest) := by
  have h : List.Perm (rest.take n ++ x :: rest.drop n) (x :: (rest.take n ++ rest.drop n)) :=
    List.perm_middle
  rwa [List.take_append_drop] at h

theorem arrayMove_perm (l : List α) (f t : Int) : List.Perm (arrayMove l f t) l := by
  simp only [arrayMove]
  set pos : Int := if t < 0 then (l.length : Int) + t else t with hpos
  set s := jsClampIndex l.length f with hs
  cases hget : l.get? s with
  | none =>
    rw [List.get?_eq_none] at hget
    rw [List.take_of_length_le hget, List.drop_eq_nil_of_le (by omega), List.append_nil]
    show List.Perm (l.take (jsClampIndex l.length pos) ++ [] ++ l.drop (jsClampIndex l.length pos)) l
    rw [List.append_nil, List.take_append_drop]
  | some x =>
    have hlt : s < l.length := by
      by_contra hge
      rw [List.get?_eq_none.mpr (by omega)] at hget
      exact Option.noConfusion hget
    have hxval : l[s] = x := by
      have := (List.get?_eq_getElem? l s).symm.trans hget
      rw [List.getElem?_eq_getElem hlt] at this
      exact Option.some.inj this
    have hx : l = l.take s ++ x :: l.drop (s + 1) := by
      conv_lhs => rw [← List.take_append_drop s l]
      rw [List.drop_eq_getElem_cons hlt, hxval]
    set rest := l.take s ++ l.drop (s + 1) with hrest
    show List.Perm
      (rest.take (jsClampIndex rest.length pos) ++ [x] ++ rest.drop (jsClampIndex rest.length pos)) l
    set n := jsClampIndex rest.length pos with hn
    have h1 : rest.take n ++ [x] ++ rest.drop n = rest.take n ++ x :: rest.drop n := by
      simp
    rw [h1]
    have p1 := perm_take_cons_drop rest x n
    have p2 : List.Perm l (x :: rest) := by
      conv_lhs => rw [hx]
      exact List.perm_middle
    exact p1.trans p2.symm

/-! ## jsFindIndex, jsGet and dragOver helpers -/

theorem jsFindIndex_found {p : α → Bool} {l : List α} {x : α}
    (h : jsGet l (jsFindIndex p l) = some x) : p x = true ∧ x ∈ l := by
  induction l with
  | nil => simp [jsFindIndex, jsGet] at h
  | cons a rest ih =>
    by_cases hp : p a
    · rw [jsFindIndex, if_pos hp] at h
      simp [jsGet] at h
      subst h
      exact ⟨hp, List.mem_cons_self a rest⟩
    · rw [jsFindIndex, if_neg hp] at h
      by_cases hr : jsFindIndex p rest < 0
      · rw [if_pos hr] at h
        simp [jsGet] at h
      · rw [if_neg hr] at h
        push_neg at hr
        have hstep : jsGet (a :: rest) (jsFindIndex p rest + 1) = jsGet rest (jsFindIndex p rest) := by
          rw [jsGet, jsGet, if_neg (by omega), if_neg (by omega)]
          have htn : (jsFindIndex p rest + 1).toNat = (jsFindIndex p rest).toNat + 1 := by omega
          rw [htn]
          rfl
        rw [hstep] at h
        rcases ih h with ⟨h1, h2⟩
        exact ⟨h1, List.mem_cons_of_mem a h2⟩

theorem reduceOption_map_some (l : List α) : (l.map some).reduceOption = l := by
  induction l with
  | nil => rfl
  | cons a rest ih => simp [ih]

theorem reduceOption_cons_toList (x : Option α) (l : List (Option α)) :
    (x :: l).reduceOption = x.toList ++ l.reduceOption := by
  cases x <;> simp

theorem dragOverNewOverItems_reduce (A O : List KanbanItem) (i : Int) (n : Nat) :
    (dragOverNewOverItems A O i n).reduceOption =
      O.take n ++ (jsGet A i).toList ++ O.drop n := by
  rw [dragOverNewOverItems, List.reduceOption_append, reduceOption_cons_toList]
  rw [← List.map_take, ← List.map_drop, reduceOption_map_some, reduceOption_map_some]
  rw [List.append_assoc]

theorem countId_insert_toList (O : List KanbanItem) (x : Option KanbanItem) (n : Nat)
    (a : String) :
    countId (O.take n ++ x.toList ++ O.drop n) a = countId O a + countId x.toList a := by
  rw [countId_append, countId_append]
  have h : countId (O.take n) a + countId (O.drop n) a = countId O a := by
    rw [← countId_append, List.take_append_drop]
  omega

theorem countBoard_setCol_setCol {ac oc : ColumnKey} (hne : ac ≠ oc)
    (L1 L2 : List KanbanItem) (b : BoardState) (a : String) :
    countBoard (setCol oc L2 (setCol ac L1 b)) a + countId (getCol ac b) a +
        countId (getCol oc b) a =
      countBoard b a + countId L1 a + countId L2 a := by
  cases ac <;> cases oc <;>
    first
      | exact absurd rfl hne
      | (simp only [countBoard_eq_sum, setCol, getCol]; omega)

theorem countId_two_cols_le {ac oc : ColumnKey} (hne : ac ≠ oc) (b : BoardState)
    (a : String) :
    countId (getCol ac b) a + countId (getCol oc b) a ≤ countBoard b a := by
  have h := countBoard_eq_sum b a
  cases ac <;> cases oc <;>
    first
      | exact absurd rfl hne
      | (simp only [getCol]; omega)

theorem handleDragOver_eq {g : Bool} {aId oId : String} {b : BoardState} {ac oc : ColumnKey}
    (hac : findContainer aId b = some (Container.col ac))
    (hoc : findContainer oId b = some (Container.col oc))
    (hne : ac ≠ oc) :
    handleDragOver g aId oId b =
      setCol oc
        ((dragOverNewOverItems (getCol ac b) (getCol oc b)
            (jsFindIndex (fun i => i.id == aId) (getCol ac b))
            (dragOverNewIndex (jsInBoard oId) g
              (jsFindIndex (fun i => i.id == oId) (getCol oc b))
              (getCol oc b).length)).reduceOption)
        (setCol ac ((getCol ac b).filter (fun i => !(i.id == aId))) b) := by
  simp only [handleDragOver, hac, hoc, if_neg hne]

theorem handleDragOver_preserves (g : Bool) (aId oId : String) {b : BoardState}
    (hU : UniqueBoard b) : UniqueBoard (handleDragOver g aId oId b) := by
  cases hac : findContainer aId b with
  | none =>
    simp only [handleDragOver, hac]
    exact hU
  | some ca =>
    cases hoc : findContainer oId b with
    | none =>
      simp only [handleDragOver, hac, hoc]
      exact hU
    | some co =>
      cases ca with
      | phantom s =>
        cases co <;> (simp only [handleDragOver, hac, hoc]; exact hU)
      | col ac =>
      cases co with
      | phantom s =>
        simp only [handleDragOver, hac, hoc]
        exact hU
      | col oc =>
      by_cases heq : ac = oc
      · simp only [handleDragOver, hac, hoc, if_pos heq]
        exact hU
      · rw [handleDragOver_eq hac hoc heq]
        intro a
        rw [dragOverNewOverItems_reduce]
        have hkey := countBoard_setCol_setCol heq
          ((getCol ac b).filter (fun i => !(i.id == aId)))
          ((getCol oc b).take
              (dragOverNewIndex (jsInBoard oId) g
                (jsFindIndex (fun i => i.id == oId) (getCol oc b))
                (getCol oc b).length) ++
            (jsGet (getCol ac b) (jsFindIndex (fun i => i.id == aId) (getCol ac b))).toList ++
            (getCol oc b).drop
              (dragOverNewIndex (jsInBoard oId) g
                (jsFindIndex (fun i => i.id == oId) (getCol oc b))
                (getCol oc b).length))
          b a
        rw [countId_filter_ne, countId_insert_toList] at hkey
        have hB := hU a
        have hcols := countId_two_cols_le heq b a
        cases hj : jsGet (getCol ac b) (jsFindIndex (fun i => i.id == aId) (getCol ac b)) with
        | none =>
          rw [hj] at hkey
          simp only [Option.toList_none, countId_nil] at hkey ⊢
          by_cases ha : a = aId
          · rw [if_pos ha] at hkey
            omega
          · rw [if_neg ha] at hkey
            omega
        | some it =>
          rcases jsFindIndex_found hj with ⟨hpid, hmem⟩
          rw [hj] at hkey
          have hit : it.id = aId := by simpa using hpid
          by_cases ha : a = aId
          · subst ha
            have h1 : countId (Option.some it).toList a = 1 := by
              simp [Option.toList_some, countId_cons, countId_nil, hit]
            have hpos : 0 < countId (getCol ac b) a :=
              countId_pos.mpr ⟨it, hmem, hit⟩
            rw [if_pos rfl, h1] at hkey
            omega
          · have h0 : countId (Option.some it).toList a = 0 := by
              simp [Option.toList_some, countId_cons, countId_nil, hit, ha]
              intro hcontra
              exact absurd hcontra.symm ha
            rw [if_neg ha, h0] at hkey
            omega

/-! ## Drag-end preservation and the operational invariant -/

theorem countId_arrayMove (l : List KanbanItem) (f t : Int) (a : String) :
    countId (arrayMove l f t) a = countId l a := by
  show (arrayMove l f t).countP (fun i => i.id == a) = l.countP (fun i => i.id == a)
  exact (arrayMove_perm l f t).countP_eq _

theorem handleDragEnd_preserves (aId oId : String) {b : BoardState}
    (hU : UniqueBoard b) : UniqueBoard (handleDragEnd aId oId b) := by
  cases hac : findContainer aId b with
  | none =>
    simp only [handleDragEnd, hac]
    exact hU
  | some ca =>
    cases hoc : findContainer oId b with
    | none =>
      simp only [handleDragEnd, hac, hoc]
      exact hU
    | some co =>
      cases ca with
      | phantom s =>
        cases co <;> (simp only [handleDragEnd, hac, hoc]; exact hU)
      | col ac =>
      cases co with
      | phantom s =>
        simp only [handleDragEnd, hac, hoc]
        exact hU
      | col oc =>
      by_cases heq : ac = oc
      · subst heq
        simp only [handleDragEnd, hac, hoc]
        rw [if_true]
        by_cases hidx : jsFindIndex (fun i => i.id == aId) (getCol ac b) ≠
            jsFindIndex (fun i => i.id == oId) (getCol ac b)
        · rw [if_pos hidx]
          intro a
          rw [countBoard_setCol]
          have harr : countId
              (arrayMove (getCol ac b) (jsFindIndex (fun i => i.id == aId) (getCol ac b))
                (jsFindIndex (fun i => i.id == oId) (getCol ac b))) a =
              countId (getCol ac b) a := countId_arrayMove ..
          have hle := countId_col_le_countBoard b ac a
          have := hU a
          omega
        · rw [if_neg hidx]
          exact hU
      · simp only [handleDragEnd, hac, hoc, if_neg heq]
        cases hfind : (getCol ac b).find? (fun i => i.id == aId) with
        | some it => exact ensureUnique_unique _
        | none => exact hU

theorem applyOp_preserves {b : BoardState} (hU : UniqueBoard b) (op : BoardOp) :
    UniqueBoard (applyOp b op) := by
  cases op with
  | addCard result col =>
    cases result with
    | none => exact hU
    | some row => exact ensureUnique_unique _
  | deleteCard ok col id =>
    cases ok with
    | false => exact hU
    | true => exact ensureUnique_unique _
  | editCard ok col updated =>
    cases ok with
    | false => exact hU
    | true => exact ensureUnique_unique _
  | dragOver g aId oId => exact handleDragOver_preserves g aId oId hU
  | dragEnd aId oId => exact handleDragEnd_preserves aId oId hU
  | realtimeInsert rec =>
    show UniqueBoard (handleRealtimeInsert rec b)
    cases hk : effectiveKey rec.column_key with
    | none =>
      simp only [handleRealtimeInsert, hk]
      exact hU
    | some k =>
      simp only [handleRealtimeInsert, hk]
      exact ensureUnique_unique _
  | realtimeUpdate markers rec =>
    show UniqueBoard (handleRealtimeUpdate markers rec b)
    by_cases hm : rec.id ∈ markers
    · simp only [handleRealtimeUpdate, if_pos hm]
      exact hU
    · simp only [handleRealtimeUpdate, if_neg hm]
      cases hk : effectiveKey rec.column_key with
      | none => exact hU
      | some k => exact ensureUnique_unique _
  | realtimeDelete id => exact ensureUnique_unique _

theorem foldl_applyOp_preserves (ops : List BoardOp) :
    ∀ b : BoardState, UniqueBoard b → UniqueBoard (ops.foldl applyOp b) := by
  induction ops with
  | nil => exact fun b hU => hU
  | cons op rest ih => exact fun b hU => ih (applyOp b op) (applyOp_preserves hU op)

theorem initialBoard_unique : UniqueBoard initialBoard := by
  intro a
  simp [countBoard_eq_sum, initialBoard, countId]

/-! ## Remaining shared helpers -/

theorem rowToItem_id (r : CardRow) : (rowToItem r).id = r.id := rfl

theorem find?_eq_some_of_mem_ids {l : List KanbanItem} {s : String} (h : s ∈ idsOf l) :
    ∃ it, l.find? (fun i => i.id == s) = some it ∧ it.id = s := by
  induction l with
  | nil => simp [idsOf] at h
  | cons i rest ih =>
    by_cases hi : i.id = s
    · exact ⟨i, List.find?_cons_of_pos rest (by simp [hi]), hi⟩
    · have hrest : s ∈ idsOf rest := by
        simp only [idsOf, List.map_cons, List.mem_cons] at h
        rcases h with h | h
        · exact absurd h.symm hi
        · exact h
      rcases ih hrest with ⟨it, hfind, hit⟩
      exact ⟨it, by rw [List.find?_cons_of_neg rest (by simp [hi])]; exact hfind, hit⟩

/-! ## Claim theorems -/

/-- C1: starting from the empty board, after any sequence of board operations
(add with either remote outcome, delete, edit, same-column reorder,
cross-column move, drag-over preview, and ingestion of insert, update and
delete events) every card identity occurs at most once on the whole board:
in at most one column, and in that column at most once. -/
theorem no_duplication_invariant (ops : List BoardOp) : UniqueBoard (runOps ops) := by
  rw [runOps]
  exact foldl_applyOp_preserves ops initialBoard initialBoard_unique

/-- C2: on a duplicate-free board, ingesting a remote update event whose
identity is in the pending-write marker set leaves the board unchanged;
for an identity not in the marker set, the identity is removed from every
column and the updated record is appended at the end of its declared
column. -/
theorem update_ingestion_spec (markers : List String) (rec : CardRow) (b : BoardState)
    (d : ColumnKey) (hU : UniqueBoard b) (hd : effectiveKey rec.column_key = some d) :
    (rec.id ∈ markers → handleRealtimeUpdate markers rec b = b) ∧
    (rec.id ∉ markers →
      handleRealtimeUpdate markers rec b =
        appendToCol d (rowToItem rec) (removeIdBoard rec.id b)) := by
  constructor
  · intro hm
    simp [handleRealtimeUpdate, hm]
  · intro hm
    simp only [handleRealtimeUpdate, if_neg hm, hd]
    apply ensure_eq_self
    apply unique_appendToCol_fresh (unique_removeIdBoard hU rec.id)
    show (rowToItem rec).id ∉ _
    rw [rowToItem_id]
    exact not_mem_boardIds_removeIdBoard rec.id b

/-- Witness for C2 at a concrete board: the marked update is skipped, the
unmarked update relocates card 1 from todo to the end of doing. -/
theorem update_ingestion_spec_witness :
    handleRealtimeUpdate ["1"] wRec wBoard = wBoard ∧
    handleRealtimeUpdate ["9"] wRec wBoard =
      appendToCol .doing (rowToItem wRec) (removeIdBoard "1" wBoard) := by
  have hU : UniqueBoard wBoard := (uniqueBoard_iff_nodup wBoard).mpr (by decide)
  have h1 := update_ingestion_spec ["1"] wRec wBoard .doing hU (by decide)
  have h2 := update_ingestion_spec ["9"] wRec wBoard .doing hU (by decide)
  exact ⟨h1.1 (by decide), h2.2 (by decide)⟩

/-- C3 counterexample: with card 1 in the todo column and a failing remote
delete, the claimed immediate optimistic removal does not happen: the board
is unchanged and the card is still present. -/
theorem delete_not_optimistic_cex :
    (handleDelete false "network error" .todo "1" cexDelState).1.board = cexDelState.board ∧
    countId (handleDelete false "network error" .todo "1" cexDelState).1.board.todo "1" = 1 := by
  constructor
  · rfl
  · decide

/-- C3 amended: handleDelete awaits the remote delete first.  On failure the
board is untouched, the error banner is set, and only the delete call was
issued; on success (for a duplicate-free board) the card is removed from the
column, the error stays clear, and the delete call is followed by one
position update per card of the pre-removal column sequence. -/
theorem delete_awaits_remote (msg : String) (col : ColumnKey) (id : String)
    (st : ComponentState) (hU : UniqueBoard st.board) :
    ((handleDelete false msg col id st).1.board = st.board ∧
     (handleDelete false msg col id st).1.error = some ("Failed to delete task: " ++ msg) ∧
     (handleDelete false msg col id st).2 = [RemoteCall.deleteCard id]) ∧
    ((handleDelete true msg col id st).1.board =
        setCol col ((getCol col st.board).filter (fun i => !(i.id == id))) st.board ∧
     (handleDelete true msg col id st).1.error = none ∧
     (handleDelete true msg col id st).2 =
        RemoteCall.deleteCard id :: persistCalls (getCol col st.board) ∧
     countId (getCol col (handleDelete true msg col id st).1.board) id = 0) := by
  refine ⟨⟨rfl, rfl, rfl⟩, ?_, rfl, rfl, ?_⟩
  · show ensureUniqueItems (setCol col ((getCol col st.board).filter (fun i => !(i.id == id))) st.board) = _
    exact ensure_eq_self (unique_setCol_filter hU col _)
  · show countId (getCol col
      (ensureUniqueItems (setCol col ((getCol col st.board).filter (fun i => !(i.id == id))) st.board))) id = 0
    rw [ensure_eq_self (unique_setCol_filter hU col _), getCol_setCol_same]
    exact countId_filter_self _ id

/-- Witness for C3 at a concrete state: deleting card 1 from todo. -/
theorem delete_awaits_remote_witness :
    (handleDelete false "x" .todo "1" cexDelState).1.board = cexDelState.board ∧
    (handleDelete true "x" .todo "1" cexDelState).1.board =
      setCol .todo ((getCol .todo cexDelState.board).filter (fun i => !(i.id == "1")))
        cexDelState.board := by
  have h := delete_awaits_remote "x" .todo "1" cexDelState
    ((uniqueBoard_iff_nodup cexDelState.board).mpr (by decide))
  exact ⟨h.1.1, h.2.1⟩

/-- C8 counterexample: when the remote create fails on a state with a clear
error banner, no error is surfaced: the banner stays empty (the claim says
it is set), and the board is unchanged. -/
theorem add_failure_silent_cex :
    (handleAdd none .todo cexAddState).error = none ∧
    (handleAdd none .todo cexAddState).board = cexAddState.board :=
  ⟨rfl, rfl⟩

/-- C8 amended: when the remote create fails, handleAdd changes nothing at
all: the board is not mutated (no card added, no sequence changed), the
error banner is left exactly as it was (no error is surfaced), and the add
dialog stays open. -/
theorem add_failure_spec (col : ColumnKey) (st : ComponentState) :
    (handleAdd none col st).board = st.board ∧
    (handleAdd none col st).error = st.error ∧
    (handleAdd none col st).addOpen = st.addOpen ∧
    boardIds (handleAdd none col st).board = boardIds st.board :=
  ⟨rfl, rfl, rfl, rfl⟩

/-- C9 counterexample: the identity "toString" is neither a column key nor
the id of any card on the concrete board, yet findContainer does not return
not-found: the in-operator walks the prototype chain, so the string is
returned as a phantom container. -/
theorem findContainer_phantom_cex :
    findContainer "toString" wBoard = some (Container.phantom "toString") ∧
    findContainer "toString" wBoard ≠ none := by
  refine ⟨by decide, by decide⟩

/-- C9 amended: findContainer gives column keys precedence over card
identities: an identity equal to one of the four column keys resolves to
that column itself no matter which cards exist.  An identity that is
neither a column key, nor an Object.prototype property name, nor the id of
any card on the board resolves to none.  But an identity that is an
Object.prototype property name (toString, hasOwnProperty, ...) does NOT
resolve to none: the in-test matches the inherited property and the string
itself is returned as a phantom container. -/
theorem findContainer_spec (b : BoardState) (s : String) :
    (∀ k, keyOfString s = some k → findContainer s b = some (Container.col k)) ∧
    (keyOfString s = none → s ∈ protoProps →
      findContainer s b = some (Container.phantom s)) ∧
    (keyOfString s = none → s ∉ protoProps → (∀ it ∈ allItems b, it.id ≠ s) →
      findContainer s b = none) := by
  refine ⟨?_, ?_, ?_⟩
  · intro k hk
    have hin : jsInBoard s = true := by simp [jsInBoard, hk]
    simp only [findContainer, hin, if_true, containerOfString, hk]
  · intro hk hp
    have hin : jsInBoard s = true := by simp [jsInBoard, hp]
    simp only [findContainer, hin, if_true, containerOfString, hk]
  · intro hk hp hnone
    have hin : jsInBoard s = false := by simp [jsInBoard, hk, hp]
    simp only [findContainer, hin, Bool.false_eq_true, if_false]
    have hT : b.todo.any (fun i => i.id == s) = false := by
      rw [List.any_eq_false]
      intro it hit
      simp only [beq_iff_eq]
      exact hnone it (by simp [allItems, hit])
    have hD : b.doing.any (fun i => i.id == s) = false := by
      rw [List.any_eq_false]
      intro it hit
      simp only [beq_iff_eq]
      exact hnone it (by simp [allItems, hit])
    have hDn : b.done.any (fun i => i.id == s) = false := by
      rw [List.any_eq_false]
      intro it hit
      simp only [beq_iff_eq]
      exact hnone it (by simp [allItems, hit])
    have hTp : b.temp.any (fun i => i.id == s) = false := by
      rw [List.any_eq_false]
      intro it hit
      simp only [beq_iff_eq]
      exact hnone it (by simp [allItems, hit])
    simp [hT, hD, hDn, hTp]

/-- Witness for C9: on a board where a card with id "todo" sits in the doing
column, the identity "todo" still resolves to the todo column; the
prototype-inherited name "hasOwnProperty" resolves to a phantom container;
an unknown ordinary identity resolves to none. -/
theorem findContainer_spec_witness :
    findContainer "todo" wBoardKey = some (Container.col ColumnKey.todo) ∧
    findContainer "hasOwnProperty" wBoardKey =
      some (Container.phantom "hasOwnProperty") ∧
    findContainer "zzz" wBoardKey = none := by
  refine ⟨(findContainer_spec wBoardKey "todo").1 ColumnKey.todo (by decide), ?_, ?_⟩
  · exact (findContainer_spec wBoardKey "hasOwnProperty").2.1 (by decide) (by decide)
  · exact (findContainer_spec wBoardKey "zzz").2.2 (by decide) (by decide) (by decide)

/-- C5: at drag-end across two distinct resolved real columns (identities
whose containers resolve to actual columns, not to a phantom container
produced by a prototype-inherited name, where the program instead throws
and moves nothing), with the dragged card actually present in the source
column of a duplicate-free board, the
move removes the identity from the source sequence, puts it exactly once
into the target sequence, leaves every other column unchanged, and preserves
the combined per-identity occurrence counts (hence the combined multiset of
identities) of the source and target columns. -/
theorem move_across_columns_spec (activeId overId : String) (b : BoardState)
    (ac oc : ColumnKey) (hU : UniqueBoard b)
    (hac : findContainer activeId b = some (Container.col ac))
    (hoc : findContainer overId b = some (Container.col oc))
    (hne : ac ≠ oc) (hmem : activeId ∈ idsOf (getCol ac b)) :
    getCol ac (handleDragEnd activeId overId b) =
        (getCol ac b).filter (fun i => !(i.id == activeId)) ∧
    countId (getCol oc (handleDragEnd activeId overId b)) activeId = 1 ∧
    (∀ c, c ≠ ac → c ≠ oc → getCol c (handleDragEnd activeId overId b) = getCol c b) ∧
    (∀ a, countId (getCol ac (handleDragEnd activeId overId b)) a +
        countId (getCol oc (handleDragEnd activeId overId b)) a =
      countId (getCol ac b) a + countId (getCol oc b) a) := by
  obtain ⟨it, hfind, hit⟩ := find?_eq_some_of_mem_ids hmem
  have hApos : 0 < countId (getCol ac b) activeId := countId_pos_of_mem_idsOf hmem
  have hBle := hU activeId
  have h2le := countId_two_cols_le hne b activeId
  have hOzero : countId (getCol oc b) activeId = 0 := by omega
  have hgoc : getCol oc (setCol ac ((getCol ac b).filter (fun i => !(i.id == activeId))) b) =
      getCol oc b := getCol_setCol_ne (Ne.symm hne) _ _
  have hXunique : UniqueBoard
      (setCol ac ((getCol ac b).filter (fun i => !(i.id == activeId))) b) :=
    unique_setCol_filter hU ac _
  have hXzero : countBoard
      (setCol ac ((getCol ac b).filter (fun i => !(i.id == activeId))) b) activeId = 0 := by
    rw [countBoard_setCol, countId_filter_self]
    have := countId_col_le_countBoard b ac activeId
    omega
  have heq : handleDragEnd activeId overId b =
      appendToCol oc it
        (setCol ac ((getCol ac b).filter (fun i => !(i.id == activeId))) b) := by
    simp only [handleDragEnd, hac, hoc, if_neg hne, hfind]
    show ensureUniqueItems _ = _
    rw [appendToCol, hgoc]
    apply ensure_eq_self
    have hfresh : it.id ∉ boardIds
        (setCol ac ((getCol ac b).filter (fun i => !(i.id == activeId))) b) := by
      rw [hit, mem_boardIds_iff_pos, hXzero]
      omega
    have := unique_appendToCol_fresh hXunique hfresh oc
    rw [appendToCol, hgoc] at this
    exact this
  rw [heq]
  have hgac : getCol ac (appendToCol oc it
      (setCol ac ((getCol ac b).filter (fun i => !(i.id == activeId))) b)) =
      (getCol ac b).filter (fun i => !(i.id == activeId)) := by
    rw [appendToCol, getCol_setCol_ne hne, getCol_setCol_same]
  have hgoc2 : getCol oc (appendToCol oc it
      (setCol ac ((getCol ac b).filter (fun i => !(i.id == activeId))) b)) =
      getCol oc b ++ [it] := by
    rw [appendToCol, getCol_setCol_same, hgoc]
  refine ⟨hgac, ?_, ?_, ?_⟩
  · rw [hgoc2, countId_append, hOzero, countId_cons, countId_nil, hit]
    simp
  · intro c hcac hcoc
    rw [appendToCol, getCol_setCol_ne hcoc, getCol_setCol_ne hcac]
  · intro a
    rw [hgac, hgoc2, countId_filter_ne, countId_append, countId_cons, countId_nil, hit]
    by_cases ha : a = activeId
    · subst ha
      rw [if_pos rfl, if_pos rfl]
      omega
    · rw [if_neg ha, if_neg (fun h => ha h.symm)]
      omega

/-- Witness for C5: moving card 1 from todo to done on the concrete board. -/
theorem move_across_columns_spec_witness :
    getCol .todo (handleDragEnd "1" "2" wBoard) =
        (getCol .todo wBoard).filter (fun i => !(i.id == "1")) ∧
    countId (getCol .done (handleDragEnd "1" "2" wBoard)) "1" = 1 := by
  have h := move_across_columns_spec "1" "2" wBoard .todo .done
    ((uniqueBoard_iff_nodup wBoard).mpr (by decide)) (by decide) (by decide)
    (by decide) (by decide)
  exact ⟨h.1, h.2.1⟩

/-- C6: a drag-end whose two endpoints resolve to the same container is a
pure permutation of that column: the column sequence after the reorder is a
permutation of the one before (so the multiset of identities, given by the
per-identity counts, is unchanged), and every other column is untouched. -/
theorem reorder_within_column_spec (activeId overId : String) (b : BoardState)
    (c : ColumnKey) (hac : findContainer activeId b = some (Container.col c))
    (hoc : findContainer overId b = some (Container.col c)) :
    List.Perm (getCol c (handleDragEnd activeId overId b)) (getCol c b) ∧
    (∀ a, countId (getCol c (handleDragEnd activeId overId b)) a = countId (getCol c b) a) ∧
    (∀ c2, c2 ≠ c → getCol c2 (handleDragEnd activeId overId b) = getCol c2 b) := by
  by_cases hidx : jsFindIndex (fun i => i.id == activeId) (getCol c b) ≠
      jsFindIndex (fun i => i.id == overId) (getCol c b)
  · have heq : handleDragEnd activeId overId b =
        setCol c (arrayMove (getCol c b) (jsFindIndex (fun i => i.id == activeId) (getCol c b))
          (jsFindIndex (fun i => i.id == overId) (getCol c b))) b := by
      simp only [handleDragEnd, hac, hoc]
      rw [if_true, if_pos hidx]
    rw [heq]
    refine ⟨?_, ?_, ?_⟩
    · rw [getCol_setCol_same]
      exact arrayMove_perm ..
    · intro a
      rw [getCol_setCol_same]
      exact countId_arrayMove ..
    · intro c2 h
      exact getCol_setCol_ne h _ _
  · have heq : handleDragEnd activeId overId b = b := by
      simp only [handleDragEnd, hac, hoc]
      rw [if_true, if_neg hidx]
    rw [heq]
    exact ⟨List.Perm.refl _, fun a => rfl, fun c2 h => rfl⟩

/-- Witness for C6: dragging card 1 onto card 2 inside one column is a
permutation of that column. -/
theorem reorder_within_column_spec_witness :
    List.Perm (getCol .todo (handleDragEnd "1" "2" ⟨[wItemA, wItemB], [], [], []⟩))
      (getCol .todo ⟨[wItemA, wItemB], [], [], []⟩) ∧
    getCol .doing (handleDragEnd "1" "2" ⟨[wItemA, wItemB], [], [], []⟩) =
      getCol .doing ⟨[wItemA, wItemB], [], [], []⟩ := by
  have h := reorder_within_column_spec "1" "2" ⟨[wItemA, wItemB], [], [], []⟩ .todo
    (by decide) (by decide)
  exact ⟨h.1, h.2.2 .doing (by decide)⟩

/-- C7 counterexample: a fetched card whose stored column key is the invalid
string "backlog" is not defaulted into the todo column; the load aborts with
the load-error banner and an empty board instead. -/
theorem fetch_invalid_key_cex :
    fetchData [cexBadRow] = Except.error "Failed to load board data. Please refresh the page." ∧
    fetchData [cexBadRow] ≠
      Except.ok (ensureUniqueItems ⟨[rowToItem cexBadRow], [], [], []⟩) := by
  refine ⟨rfl, ?_⟩
  intro h
  rw [(rfl : fetchData [cexBadRow] =
    Except.error "Failed to load board data. Please refresh the page.")] at h
  exact Except.noConfusion h

theorem partitionCards_ok (cards : List CardRow) :
    ∀ b : BoardState, (∀ c ∈ cards, (effectiveKey c.column_key).isSome) →
      partitionCards b cards = Except.ok
        ⟨b.todo ++ (partitionByKey cards).todo,
         b.doing ++ (partitionByKey cards).doing,
         b.done ++ (partitionByKey cards).done,
         b.temp ++ (partitionByKey cards).temp⟩ := by
  induction cards with
  | nil =>
    intro b h
    simp [partitionCards, partitionByKey]
  | cons c rest ih =>
    intro b h
    have hc := h c (List.mem_cons_self c rest)
    cases hk : effectiveKey c.column_key with
    | none => rw [hk] at hc; simp at hc
    | some k =>
      simp only [partitionCards, hk]
      rw [ih (appendToCol k (rowToItem c) b) (fun x hx => h x (List.mem_cons_of_mem c hx))]
      cases k <;>
        simp [partitionByKey, appendToCol, setCol, getCol, List.filter_cons, hk,
          List.append_assoc]

/-- C7 amended: the initial load partitions every fetched card into its
declared column, defaulting to todo only when the stored column key is
missing (null); the partition is deduplicated by identity and becomes the
initial board.  A present but invalid column key is not defaulted: the load
fails (see the counterexample). -/
theorem fetch_partitions_spec (cards : List CardRow)
    (h : ∀ c ∈ cards, (effectiveKey c.column_key).isSome) :
    fetchData cards = Except.ok (ensureUniqueItems (partitionByKey cards)) := by
  rw [fetchData, partitionCards_ok cards initialBoard h]
  show Except.ok (ensureUniqueItems _) = _
  have hb : (⟨initialBoard.todo ++ (partitionByKey cards).todo,
      initialBoard.doing ++ (partitionByKey cards).doing,
      initialBoard.done ++ (partitionByKey cards).done,
      initialBoard.temp ++ (partitionByKey cards).temp⟩ : BoardState) =
      partitionByKey cards := by
    simp [initialBoard]
  rw [hb]

/-- Witness for C7: loading a card with a null column key (which defaults to
todo) together with a card declared for doing. -/
theorem fetch_partitions_spec_witness :
    fetchData [wNullKeyRow, wRec] =
      Except.ok (ensureUniqueItems (partitionByKey [wNullKeyRow, wRec])) :=
  fetch_partitions_spec [wNullKeyRow, wRec] (by decide)

theorem jsFindIndex_nonneg_isSome {p : α → Bool} {l : List α}
    (h : 0 ≤ jsFindIndex p l) : ∃ x, jsGet l (jsFindIndex p l) = some x := by
  induction l with
  | nil => simp [jsFindIndex] at h
  | cons a rest ih =>
    by_cases hp : p a
    · refine ⟨a, ?_⟩
      rw [jsFindIndex, if_pos hp]
      simp [jsGet]
    · rw [jsFindIndex, if_neg hp] at h ⊢
      by_cases hr : jsFindIndex p rest < 0
      · rw [if_pos hr] at h
        omega
      · rw [if_neg hr] at h ⊢
        push_neg at hr
        rcases ih hr with ⟨x, hx⟩
        refine ⟨x, ?_⟩
        rw [jsGet, if_neg (by omega)]
        rw [jsGet, if_neg (by omega)] at hx
        have htn : (jsFindIndex p rest + 1).toNat = (jsFindIndex p rest).toNat + 1 := by
          omega
        rw [htn]
        simpa [List.get?] using hx

/-- C10: during a cross-column drag-over, the computed preview insertion
index can exceed the length of the target sequence: when hovering the target
column itself (its empty drop area) it is overItems.length + 1.  Still, as
long as the dragged card is actually present in its resolved source column
(its findIndex is nonnegative), the element fetched from the source is never
undefined, and for EVERY insertion index the constructed target sequence is
well formed: it is exactly the previous target elements with the dragged
card inserted once at a clamped position, with no undefined (none) entry. -/
theorem dragover_insert_wellformed (activeItems overItems : List KanbanItem)
    (activeId : String)
    (hpos : 0 ≤ jsFindIndex (fun i => i.id == activeId) activeItems) :
    (∀ g oIdx, dragOverNewIndex true g oIdx overItems.length = overItems.length + 1) ∧
    ∃ item, jsGet activeItems (jsFindIndex (fun i => i.id == activeId) activeItems) =
        some item ∧
      item.id = activeId ∧
      ∀ n : Nat, ∃ k, k ≤ overItems.length ∧
        dragOverNewOverItems activeItems overItems
            (jsFindIndex (fun i => i.id == activeId) activeItems) n =
          (overItems.take k ++ item :: overItems.drop k).map some := by
  refine ⟨fun g oIdx => rfl, ?_⟩
  rcases jsFindIndex_nonneg_isSome hpos with ⟨item, hj⟩
  rcases jsFindIndex_found hj with ⟨hpid, hmem⟩
  refine ⟨item, hj, by simpa using hpid, ?_⟩
  intro n
  by_cases hn : n ≤ overItems.length
  · refine ⟨n, hn, ?_⟩
    rw [dragOverNewOverItems, hj]
    rw [List.map_append, List.map_cons]
    rw [← List.map_take, ← List.map_drop]
  · refine ⟨overItems.length, Nat.le_refl _, ?_⟩
    rw [dragOverNewOverItems, hj]
    have hlen : (overItems.map some).length ≤ n := by
      rw [List.length_map]
      omega
    rw [List.take_of_length_le hlen, List.drop_eq_nil_of_le hlen]
    rw [List.take_length, List.drop_length]
    simp

/-- Witness for C10: dragging the present card 1 over a one-card target
column; the empty-area index is 2, one past the length. -/
theorem dragover_insert_wellformed_witness :
    dragOverNewIndex true false 0 1 = 2 ∧
    ∃ item, jsGet [wItemA] (jsFindIndex (fun i => i.id == "1") [wItemA]) = some item ∧
      item.id = "1" := by
  have h := dragover_insert_wellformed [wItemA] [wItemB] "1" (by decide)
  rcases h.2 with ⟨item, h2, h3, h4⟩
  exact ⟨h.1 false 0, item, h2, h3⟩

/-! ## Insert-ingestion analysis (C4) -/

theorem dedupCol_cons_mem {seen : List String} {i : KanbanItem} (h : i.id ∈ seen)
    (rest : List KanbanItem) : dedupCol seen (i :: rest) = dedupCol seen rest := by
  rw [dedupCol, if_pos h]

theorem dedupCol_cons_not_mem {seen : List String} {i : KanbanItem} (h : i.id ∉ seen)
    (rest : List KanbanItem) :
    dedupCol seen (i :: rest) =
      ((i :: (dedupCol (i.id :: seen) rest).1), (dedupCol (i.id :: seen) rest).2) := by
  rw [dedupCol, if_neg h]

theorem allIds_append (c1 c2 : List (List KanbanItem)) :
    allIds (c1 ++ c2) = allIds c1 ++ allIds c2 := by
  simp [allIds]

theorem ensure_eq_boardOfCols (b : BoardState) :
    ensureUniqueItems b = boardOfCols (dedupColsList [] (boardCols b)) := by
  calc ensureUniqueItems b = boardOfCols (boardCols (ensureUniqueItems b)) :=
        (boardOfCols_boardCols _).symm
    _ = _ := by rw [ensure_boardCols]

theorem dedupColsList_prepend_dup_earlier
    {pre post : List (List KanbanItem)} {ld : List KanbanItem} {it : KanbanItem}
    (hnd : (allIds (pre ++ ld :: post)).Nodup)
    (hin : it.id ∈ allIds pre) :
    dedupColsList [] (pre ++ (it :: ld) :: post) = pre ++ ld :: post := by
  rw [allIds_append, allIds_cons, List.nodup_append] at hnd
  rcases hnd with ⟨hndpre, hndrest, hdisj⟩
  rw [List.nodup_append] at hndrest
  rcases hndrest with ⟨hndld, hndpost, hdisj2⟩
  rw [dedupColsList_append]
  have h1 : dedupColsList [] pre = pre :=
    dedupColsList_id hndpre (fun x _ hx => by cases hx)
  rw [h1]
  have hs1 : ∀ x, x ∈ dedupSeen [] pre ↔ x ∈ allIds pre := by
    intro x
    rw [dedupSeen_mem]
    simp
  rw [dedupColsList, dedupCol_cons_mem ((hs1 it.id).mpr hin)]
  have hldfresh : ∀ x ∈ idsOf ld, x ∉ dedupSeen [] pre := by
    intro x hx hxs
    exact hdisj ((hs1 x).mp hxs) (List.mem_append_left _ hx)
  have hld1 : (dedupCol (dedupSeen [] pre) ld).1 = ld := by
    rw [dedupCol_eq_filter hndld]
    apply List.filter_eq_self.mpr
    intro i hi
    have := hldfresh i.id (List.mem_map_of_mem (fun x => x.id) hi)
    simp [this]
  have htail : dedupColsList (dedupCol (dedupSeen [] pre) ld).2 post = post := by
    apply dedupColsList_id hndpost
    intro x hx
    rw [dedupCol_mem_seen]
    push_neg
    constructor
    · intro hxs
      exact hdisj ((hs1 x).mp hxs) (List.mem_append_right _ hx)
    · intro hxl
      exact hdisj2 hxl hx
  rw [hld1, htail]

theorem dedupColsList_prepend_dup_later
    {pre post : List (List KanbanItem)} {ld : List KanbanItem} {it : KanbanItem}
    (hnd : (allIds (pre ++ ld :: post)).Nodup)
    (hpre : it.id ∉ allIds pre) :
    dedupColsList [] (pre ++ (it :: ld) :: post) =
      pre ++ (it :: ld.filter (fun i => !(i.id == it.id))) ::
        post.map (fun l => l.filter (fun i => !(i.id == it.id))) := by
  rw [allIds_append, allIds_cons, List.nodup_append] at hnd
  rcases hnd with ⟨hndpre, hndrest, hdisj⟩
  rw [List.nodup_append] at hndrest
  rcases hndrest with ⟨hndld, hndpost, hdisj2⟩
  rw [dedupColsList_append]
  have h1 : dedupColsList [] pre = pre :=
    dedupColsList_id hndpre (fun x _ hx => by cases hx)
  rw [h1]
  have hs1 : ∀ x, x ∈ dedupSeen [] pre ↔ x ∈ allIds pre := by
    intro x
    rw [dedupSeen_mem]
    simp
  rw [dedupColsList]
  have hnotmem : it.id ∉ dedupSeen [] pre := fun hmem => hpre ((hs1 it.id).mp hmem)
  have hfst : (dedupCol (dedupSeen [] pre) (it :: ld)).1 =
      it :: (dedupCol (it.id :: dedupSeen [] pre) ld).1 := by
    rw [dedupCol_cons_not_mem hnotmem]
  have hsnd : (dedupCol (dedupSeen [] pre) (it :: ld)).2 =
      (dedupCol (it.id :: dedupSeen [] pre) ld).2 := by
    rw [dedupCol_cons_not_mem hnotmem]
  have hld1 : (dedupCol (it.id :: dedupSeen [] pre) ld).1 =
      ld.filter (fun i => !(i.id == it.id)) := by
    rw [dedupCol_eq_filter hndld]
    apply List.filter_congr
    intro j hj
    have hjs1 : j.id ∉ dedupSeen [] pre := by
      intro hxs
      exact hdisj ((hs1 j.id).mp hxs)
        (List.mem_append_left _ (List.mem_map_of_mem (fun x => x.id) hj))
    by_cases hje : j.id = it.id
    · simp [hje, List.mem_cons]
    · simp [List.mem_cons, hje, hjs1]
  have htail : dedupColsList (dedupCol (it.id :: dedupSeen [] pre) ld).2 post =
      post.map (fun l => l.filter (fun i => !(i.id == it.id))) := by
    apply dedupColsList_removeId hndpost
    · intro x hx hxs
      rw [dedupCol_mem_seen] at hxs
      rcases hxs with hxs | hxs
      · rcases List.mem_cons.mp hxs with hxs | hxs
        · exact hxs
        · exact absurd hxs (fun hc => hdisj ((hs1 x).mp hc) (List.mem_append_right _ hx))
      · exact absurd hxs (fun hc => hdisj2 hc hx)
    · rw [dedupCol_mem_seen]
      exact Or.inl (List.mem_cons_self it.id _)
  rw [hfst, hsnd, hld1, htail]

theorem filter_ne_id_of_not_mem (l : List KanbanItem) (s : String) (h : s ∉ idsOf l) :
    l.filter (fun i => !(i.id == s)) = l := by
  apply List.filter_eq_self.mpr
  intro i hi
  have hne : i.id ≠ s := fun he => h (he ▸ List.mem_map_of_mem (fun x => x.id) hi)
  simp [hne]

theorem not_mem_other_col {b : BoardState} (hU : UniqueBoard b) {s : String} {c : ColumnKey}
    (hmem : s ∈ idsOf (getCol c b)) {c2 : ColumnKey} (hne : c2 ≠ c) :
    s ∉ idsOf (getCol c2 b) := by
  intro h2
  have h1 := countId_pos_of_mem_idsOf hmem
  have h2p := countId_pos_of_mem_idsOf h2
  have hle := countId_two_cols_le hne b s
  have := hU s
  omega

theorem ensure_prepend_dup_earlier {b : BoardState} {it : KanbanItem} {c d : ColumnKey}
    (hU : UniqueBoard b) (hmem : it.id ∈ idsOf (getCol c b)) (hlt : scanIdx c < scanIdx d) :
    ensureUniqueItems (prependCol d it b) = b := by
  cases c with
  | todo =>
    cases d with
    | todo =>
      exact absurd hlt (by decide)
    | doing =>
      rw [ensure_eq_boardOfCols]
      have hnd : (allIds ([b.todo] ++ b.doing :: [b.done, b.temp])).Nodup := by
        have h := (uniqueBoard_iff_nodup b).mp hU
        rw [boardIds_eq_allIds] at h
        exact h
      have hm : it.id ∈ idsOf (getCol ColumnKey.todo b) := hmem
      have hin : it.id ∈ allIds [b.todo] := by
        simp only [allIds, List.flatten_cons, List.flatten_nil, List.append_nil,
          List.map_append, List.mem_append]
        exact hm
      show boardOfCols (dedupColsList [] ([b.todo] ++ (it :: b.doing) :: [b.done, b.temp])) = b
      rw [dedupColsList_prepend_dup_earlier hnd hin]
      rfl
    | done =>
      rw [ensure_eq_boardOfCols]
      have hnd : (allIds ([b.todo, b.doing] ++ b.done :: [b.temp])).Nodup := by
        have h := (uniqueBoard_iff_nodup b).mp hU
        rw [boardIds_eq_allIds] at h
        exact h
      have hm : it.id ∈ idsOf (getCol ColumnKey.todo b) := hmem
      have hin : it.id ∈ allIds [b.todo, b.doing] := by
        simp only [allIds, List.flatten_cons, List.flatten_nil, List.append_nil,
          List.map_append, List.mem_append]
        exact Or.inl hm
      show boardOfCols (dedupColsList [] ([b.todo, b.doing] ++ (it :: b.done) :: [b.temp])) = b
      rw [dedupColsList_prepend_dup_earlier hnd hin]
      rfl
    | temp =>
      rw [ensure_eq_boardOfCols]
      have hnd : (allIds ([b.todo, b.doing, b.done] ++ b.temp :: [])).Nodup := by
        have h := (uniqueBoard_iff_nodup b).mp hU
        rw [boardIds_eq_allIds] at h
        exact h
      have hm : it.id ∈ idsOf (getCol ColumnKey.todo b) := hmem
      have hin : it.id ∈ allIds [b.todo, b.doing, b.done] := by
        simp only [allIds, List.flatten_cons, List.flatten_nil, List.append_nil,
          List.map_append, List.mem_append]
        exact Or.inl hm
      show boardOfCols (dedupColsList [] ([b.todo, b.doing, b.done] ++ (it :: b.temp) :: [])) = b
      rw [dedupColsList_prepend_dup_earlier hnd hin]
      rfl
  | doing =>
    cases d with
    | todo =>
      exact absurd hlt (by decide)
    | doing =>
      exact absurd hlt (by decide)
    | done =>
      rw [ensure_eq_boardOfCols]
      have hnd : (allIds ([b.todo, b.doing] ++ b.done :: [b.temp])).Nodup := by
        have h := (uniqueBoard_iff_nodup b).mp hU
        rw [boardIds_eq_allIds] at h
        exact h
      have hm : it.id ∈ idsOf (getCol ColumnKey.doing b) := hmem
      have hin : it.id ∈ allIds [b.todo, b.doing] := by
        simp only [allIds, List.flatten_cons, List.flatten_nil, List.append_nil,
          List.map_append, List.mem_append]
        exact Or.inr (hm)
      show boardOfCols (dedupColsList [] ([b.todo, b.doing] ++ (it :: b.done) :: [b.temp])) = b
      rw [dedupColsList_prepend_dup_earlier hnd hin]
      rfl
    | temp =>
      rw [ensure_eq_boardOfCols]
      have hnd : (allIds ([b.todo, b.doing, b.done] ++ b.temp :: [])).Nodup := by
        have h := (uniqueBoard_iff_nodup b).mp hU
        rw [boardIds_eq_allIds] at h
        exact h
      have hm : it.id ∈ idsOf (getCol ColumnKey.doing b) := hmem
      have hin : it.id ∈ allIds [b.todo, b.doing, b.done] := by
        simp only [allIds, List.flatten_cons, List.flatten_nil, List.append_nil,
          List.map_append, List.mem_append]
        exact Or.inr (Or.inl hm)
      show boardOfCols (dedupColsList [] ([b.todo, b.doing, b.done] ++ (it :: b.temp) :: [])) = b
      rw [dedupColsList_prepend_dup_earlier hnd hin]
      rfl
  | done =>
    cases d with
    | todo =>
      exact absurd hlt (by decide)
    | doing =>
      exact absurd hlt (by decide)
    | done =>
      exact absurd hlt (by decide)
    | temp =>
      rw [ensure_eq_boardOfCols]
      have hnd : (allIds ([b.todo, b.doing, b.done] ++ b.temp :: [])).Nodup := by
        have h := (uniqueBoard_iff_nodup b).mp hU
        rw [boardIds_eq_allIds] at h
        exact h
      have hm : it.id ∈ idsOf (getCol ColumnKey.done b) := hmem
      have hin : it.id ∈ allIds [b.todo, b.doing, b.done] := by
        simp only [allIds, List.flatten_cons, List.flatten_nil, List.append_nil,
          List.map_append, List.mem_append]
        exact Or.inr (Or.inr (hm))
      show boardOfCols (dedupColsList [] ([b.todo, b.doing, b.done] ++ (it :: b.temp) :: [])) = b
      rw [dedupColsList_prepend_dup_earlier hnd hin]
      rfl
  | temp =>
    cases d with
    | todo =>
      exact absurd hlt (by decide)
    | doing =>
      exact absurd hlt (by decide)
    | done =>
      exact absurd hlt (by decide)
    | temp =>
      exact absurd hlt (by decide)

theorem ensure_prepend_dup_later {b : BoardState} {it : KanbanItem} {c d : ColumnKey}
    (hU : UniqueBoard b) (hmem : it.id ∈ idsOf (getCol c b)) (hge : scanIdx d ≤ scanIdx c) :
    ensureUniqueItems (prependCol d it b) = prependCol d it (removeIdBoard it.id b) := by
  cases c with
  | todo =>
    cases d with
    | todo =>
      rw [ensure_eq_boardOfCols]
      have hnd : (allIds ([] ++ b.todo :: [b.doing, b.done, b.temp])).Nodup := by
        have h := (uniqueBoard_iff_nodup b).mp hU
        rw [boardIds_eq_allIds] at h
        exact h
      have hm : it.id ∈ idsOf (getCol ColumnKey.todo b) := hmem
      have hpre : it.id ∉ allIds [] := by
        simp [allIds]
      show boardOfCols (dedupColsList [] ([] ++ (it :: b.todo) :: [b.doing, b.done, b.temp])) =
        prependCol ColumnKey.todo it (removeIdBoard it.id b)
      rw [dedupColsList_prepend_dup_later hnd hpre]
      simp only [prependCol, removeIdBoard, setCol, getCol]
      rfl
    | doing =>
      exact absurd hge (by decide)
    | done =>
      exact absurd hge (by decide)
    | temp =>
      exact absurd hge (by decide)
  | doing =>
    cases d with
    | todo =>
      rw [ensure_eq_boardOfCols]
      have hnd : (allIds ([] ++ b.todo :: [b.doing, b.done, b.temp])).Nodup := by
        have h := (uniqueBoard_iff_nodup b).mp hU
        rw [boardIds_eq_allIds] at h
        exact h
      have hm : it.id ∈ idsOf (getCol ColumnKey.doing b) := hmem
      have hpre : it.id ∉ allIds [] := by
        simp [allIds]
      show boardOfCols (dedupColsList [] ([] ++ (it :: b.todo) :: [b.doing, b.done, b.temp])) =
        prependCol ColumnKey.todo it (removeIdBoard it.id b)
      rw [dedupColsList_prepend_dup_later hnd hpre]
      simp only [prependCol, removeIdBoard, setCol, getCol]
      rfl
    | doing =>
      rw [ensure_eq_boardOfCols]
      have hnd : (allIds ([b.todo] ++ b.doing :: [b.done, b.temp])).Nodup := by
        have h := (uniqueBoard_iff_nodup b).mp hU
        rw [boardIds_eq_allIds] at h
        exact h
      have hm : it.id ∈ idsOf (getCol ColumnKey.doing b) := hmem
      have hpre : it.id ∉ allIds [b.todo] := by
        simp only [allIds, List.flatten_cons, List.flatten_nil, List.append_nil,
          List.map_append, List.mem_append]
        exact not_mem_other_col hU hm (show ColumnKey.todo ≠ ColumnKey.doing by decide)
      show boardOfCols (dedupColsList [] ([b.todo] ++ (it :: b.doing) :: [b.done, b.temp])) =
        prependCol ColumnKey.doing it (removeIdBoard it.id b)
      rw [dedupColsList_prepend_dup_later hnd hpre]
      simp only [prependCol, removeIdBoard, setCol, getCol]
      rw [filter_ne_id_of_not_mem b.todo it.id
        (not_mem_other_col hU hm (show ColumnKey.todo ≠ ColumnKey.doing by decide))]
      rfl
    | done =>
      exact absurd hge (by decide)
    | temp =>
      exact absurd hge (by decide)
  | done =>
    cases d with
    | todo =>
      rw [ensure_eq_boardOfCols]
      have hnd : (allIds ([] ++ b.todo :: [b.doing, b.done, b.temp])).Nodup := by
        have h := (uniqueBoard_iff_nodup b).mp hU
        rw [boardIds_eq_allIds] at h
        exact h
      have hm : it.id ∈ idsOf (getCol ColumnKey.done b) := hmem
      have hpre : it.id ∉ allIds [] := by
        simp [allIds]
      show boardOfCols (dedupColsList [] ([] ++ (it :: b.todo) :: [b.doing, b.done, b.temp])) =
        prependCol ColumnKey.todo it (removeIdBoard it.id b)
      rw [dedupColsList_prepend_dup_later hnd hpre]
      simp only [prependCol, removeIdBoard, setCol, getCol]
      rfl
    | doing =>
      rw [ensure_eq_boardOfCols]
      have hnd : (allIds ([b.todo] ++ b.doing :: [b.done, b.temp])).Nodup := by
        have h := (uniqueBoard_iff_nodup b).mp hU
        rw [boardIds_eq_allIds] at h
        exact h
      have hm : it.id ∈ idsOf (getCol ColumnKey.done b) := hmem
      have hpre : it.id ∉ allIds [b.todo] := by
        simp only [allIds, List.flatten_cons, List.flatten_nil, List.append_nil,
          List.map_append, List.mem_append]
        exact not_mem_other_col hU hm (show ColumnKey.todo ≠ ColumnKey.done by decide)
      show boardOfCols (dedupColsList [] ([b.todo] ++ (it :: b.doing) :: [b.done, b.temp])) =
        prependCol ColumnKey.doing it (removeIdBoard it.id b)
      rw [dedupColsList_prepend_dup_later hnd hpre]
      simp only [prependCol, removeIdBoard, setCol, getCol]
      rw [filter_ne_id_of_not_mem b.todo it.id
        (not_mem_other_col hU hm (show ColumnKey.todo ≠ ColumnKey.done by decide))]
      rfl
    | done =>
      rw [ensure_eq_boardOfCols]
      have hnd : (allIds ([b.todo, b.doing] ++ b.done :: [b.temp])).Nodup := by
        have h := (uniqueBoard_iff_nodup b).mp hU
        rw [boardIds_eq_allIds] at h
        exact h
      have hm : it.id ∈ idsOf (getCol ColumnKey.done b) := hmem
      have hpre : it.id ∉ allIds [b.todo, b.doing] := by
        simp only [allIds, List.flatten_cons, List.flatten_nil, List.append_nil,
          List.map_append, List.mem_append]
        push_neg
        exact ⟨not_mem_other_col hU hm (show ColumnKey.todo ≠ ColumnKey.done by decide), not_mem_other_col hU hm (show ColumnKey.doing ≠ ColumnKey.done by decide)⟩
      show boardOfCols (dedupColsList [] ([b.todo, b.doing] ++ (it :: b.done) :: [b.temp])) =
        prependCol ColumnKey.done it (removeIdBoard it.id b)
      rw [dedupColsList_prepend_dup_later hnd hpre]
      simp only [prependCol, removeIdBoard, setCol, getCol]
      rw [filter_ne_id_of_not_mem b.todo it.id
        (not_mem_other_col hU hm (show ColumnKey.todo ≠ ColumnKey.done by decide))]
      rw [filter_ne_id_of_not_mem b.doing it.id
        (not_mem_other_col hU hm (show ColumnKey.doing ≠ ColumnKey.done by decide))]
      rfl
    | temp =>
      exact absurd hge (by decide)
  | temp =>
    cases d with
    | todo =>
      rw [ensure_eq_boardOfCols]
      have hnd : (allIds ([] ++ b.todo :: [b.doing, b.done, b.temp])).Nodup := by
        have h := (uniqueBoard_iff_nodup b).mp hU
        rw [boardIds_eq_allIds] at h
        exact h
      have hm : it.id ∈ idsOf (getCol ColumnKey.temp b) := hmem
      have hpre : it.id ∉ allIds [] := by
        simp [allIds]
      show boardOfCols (dedupColsList [] ([] ++ (it :: b.todo) :: [b.doing, b.done, b.temp])) =
        prependCol ColumnKey.todo it (removeIdBoard it.id b)
      rw [dedupColsList_prepend_dup_later hnd hpre]
      simp only [prependCol, removeIdBoard, setCol, getCol]
      rfl
    | doing =>
      rw [ensure_eq_boardOfCols]
      have hnd : (allIds ([b.todo] ++ b.doing :: [b.done, b.temp])).Nodup := by
        have h := (uniqueBoard_iff_nodup b).mp hU
        rw [boardIds_eq_allIds] at h
        exact h
      have hm : it.id ∈ idsOf (getCol ColumnKey.temp b) := hmem
      have hpre : it.id ∉ allIds [b.todo] := by
        simp only [allIds, List.flatten_cons, List.flatten_nil, List.append_nil,
          List.map_append, List.mem_append]
        exact not_mem_other_col hU hm (show ColumnKey.todo ≠ ColumnKey.temp by decide)
      show boardOfCols (dedupColsList [] ([b.todo] ++ (it :: b.doing) :: [b.done, b.temp])) =
        prependCol ColumnKey.doing it (removeIdBoard it.id b)
      rw [dedupColsList_prepend_dup_later hnd hpre]
      simp only [prependCol, removeIdBoard, setCol, getCol]
      rw [filter_ne_id_of_not_mem b.todo it.id
        (not_mem_other_col hU hm (show ColumnKey.todo ≠ ColumnKey.temp by decide))]
      rfl
    | done =>
      rw [ensure_eq_boardOfCols]
      have hnd : (allIds ([b.todo, b.doing] ++ b.done :: [b.temp])).Nodup := by
        have h := (uniqueBoard_iff_nodup b).mp hU
        rw [boardIds_eq_allIds] at h
        exact h
      have hm : it.id ∈ idsOf (getCol ColumnKey.temp b) := hmem
      have hpre : it.id ∉ allIds [b.todo, b.doing] := by
        simp only [allIds, List.flatten_cons, List.flatten_nil, List.append_nil,
          List.map_append, List.mem_append]
        push_neg
        exact ⟨not_mem_other_col hU hm (show ColumnKey.todo ≠ ColumnKey.temp by decide), not_mem_other_col hU hm (show ColumnKey.doing ≠ ColumnKey.temp by decide)⟩
      show boardOfCols (dedupColsList [] ([b.todo, b.doing] ++ (it :: b.done) :: [b.temp])) =
        prependCol ColumnKey.done it (removeIdBoard it.id b)
      rw [dedupColsList_prepend_dup_later hnd hpre]
      simp only [prependCol, removeIdBoard, setCol, getCol]
      rw [filter_ne_id_of_not_mem b.todo it.id
        (not_mem_other_col hU hm (show ColumnKey.todo ≠ ColumnKey.temp by decide))]
      rw [filter_ne_id_of_not_mem b.doing it.id
        (not_mem_other_col hU hm (show ColumnKey.doing ≠ ColumnKey.temp by decide))]
      rfl
    | temp =>
      rw [ensure_eq_boardOfCols]
      have hnd : (allIds ([b.todo, b.doing, b.done] ++ b.temp :: [])).Nodup := by
        have h := (uniqueBoard_iff_nodup b).mp hU
        rw [boardIds_eq_allIds] at h
        exact h
      have hm : it.id ∈ idsOf (getCol ColumnKey.temp b) := hmem
      have hpre : it.id ∉ allIds [b.todo, b.doing, b.done] := by
        simp only [allIds, List.flatten_cons, List.flatten_nil, List.append_nil,
          List.map_append, List.mem_append]
        push_neg
        exact ⟨not_mem_other_col hU hm (show ColumnKey.todo ≠ ColumnKey.temp by decide), not_mem_other_col hU hm (show ColumnKey.doing ≠ ColumnKey.temp by decide), not_mem_other_col hU hm (show ColumnKey.done ≠ ColumnKey.temp by decide)⟩
      show boardOfCols (dedupColsList [] ([b.todo, b.doing, b.done] ++ (it :: b.temp) :: [])) =
        prependCol ColumnKey.temp it (removeIdBoard it.id b)
      rw [dedupColsList_prepend_dup_later hnd hpre]
      simp only [prependCol, removeIdBoard, setCol, getCol]
      rw [filter_ne_id_of_not_mem b.todo it.id
        (not_mem_other_col hU hm (show ColumnKey.todo ≠ ColumnKey.temp by decide))]
      rw [filter_ne_id_of_not_mem b.doing it.id
        (not_mem_other_col hU hm (show ColumnKey.doing ≠ ColumnKey.temp by decide))]
      rw [filter_ne_id_of_not_mem b.done it.id
        (not_mem_other_col hU hm (show ColumnKey.done ≠ ColumnKey.temp by decide))]
      rfl

/-- C4 counterexample: the board holds card 2 in the done column; ingesting
an insert event for identity 2 declaring column todo does NOT leave the
board unchanged: the new record is prepended to todo and the existing
occurrence in done is discarded by the scan-order deduplication. -/
theorem insert_not_ignored_cex :
    handleRealtimeInsert cexInsertRec wBoard ≠ wBoard ∧
    (handleRealtimeInsert cexInsertRec wBoard).done = [] ∧
    (handleRealtimeInsert cexInsertRec wBoard).todo = [rowToItem cexInsertRec, wItemA] := by
  refine ⟨by decide, by decide, by decide⟩

/-- C4 amended: ingesting a remote insert event on a duplicate-free board
prepends the record to its declared column and deduplicates keeping the
first occurrence in the fixed scan order todo, doing, done, temp.  Hence: a
record whose identity does not exist on the board is simply prepended to its
declared column; a record whose identity already lives in a column strictly
EARLIER in scan order than the declared column is ignored (board unchanged);
but a record whose identity lives in the declared column or a LATER one is
not ignored: the prepended record wins and the old occurrence is removed. -/
theorem insert_ingestion_spec (rec : CardRow) (b : BoardState) (d : ColumnKey)
    (hU : UniqueBoard b) (hd : effectiveKey rec.column_key = some d) :
    (rec.id ∉ boardIds b →
      handleRealtimeInsert rec b = prependCol d (rowToItem rec) b) ∧
    (∀ c, rec.id ∈ idsOf (getCol c b) → scanIdx c < scanIdx d →
      handleRealtimeInsert rec b = b) ∧
    (∀ c, rec.id ∈ idsOf (getCol c b) → scanIdx d ≤ scanIdx c →
      handleRealtimeInsert rec b =
        prependCol d (rowToItem rec) (removeIdBoard rec.id b)) := by
  have hinsert : handleRealtimeInsert rec b =
      ensureUniqueItems (prependCol d (rowToItem rec) b) := by
    simp only [handleRealtimeInsert, hd]
  refine ⟨?_, ?_, ?_⟩
  · intro hfresh
    rw [hinsert]
    exact ensure_eq_self (unique_prependCol_fresh hU hfresh d)
  · intro c hmem hlt
    rw [hinsert]
    exact @ensure_prepend_dup_earlier b (rowToItem rec) c d hU hmem hlt
  · intro c hmem hge
    rw [hinsert]
    exact @ensure_prepend_dup_later b (rowToItem rec) c d hU hmem hge

/-- Witness for C4: a fresh identity 9 is prepended to doing; the duplicate
identity 2 (in done, at or after the declared column todo in scan order) is
relocated: prepended to todo with the old occurrence removed. -/
theorem insert_ingestion_spec_witness :
    handleRealtimeInsert ⟨"9", "Fresh", none, none, some "doing", 0⟩ wBoard =
      prependCol .doing (rowToItem ⟨"9", "Fresh", none, none, some "doing", 0⟩) wBoard ∧
    handleRealtimeInsert cexInsertRec wBoard =
      prependCol .todo (rowToItem cexInsertRec) (removeIdBoard "2" wBoard) := by
  have hU : UniqueBoard wBoard := (uniqueBoard_iff_nodup wBoard).mpr (by decide)
  have h1 := insert_ingestion_spec ⟨"9", "Fresh", none, none, some "doing", 0⟩ wBoard
    .doing hU (by decide)
  have h2 := insert_ingestion_spec cexInsertRec wBoard .todo hU (by decide)
  exact ⟨h1.1 (by decide), h2.2.2 .done (by decide) (by decide)⟩
